import Mathlib

/-!
# CubeMapToOctMap: projection codecs, filter kernels and the resampling loop

A shallow embedding of `cubemaputil.h`, `octmaputil.h`, `filter.h` and the
per-pixel resampling loop of `main.cc`.

Conventions of the embedding:

* `float` is idealised as an arbitrary linearly ordered field `K` (exact
  arithmetic).  The definitions are generic and computable, so they evaluate
  on `ℚ`; the theorems about exact real arithmetic instantiate `K := ℝ`.
* The C library functions the code calls (`std::sqrt`, `std::exp`, the constant
  `M_PI`) are parameters of the definitions that use them; theorems pass
  `Real.sqrt`, `Real.exp` and `Real.pi`.
* `int` is `Int`; the cast `int(f)` truncates toward zero.
* The Imath vector operations the code uses (`length`, `length2`, `normalize`,
  `normalized`, component-wise arithmetic) are written out on `V2`/`V3`.
-/

namespace CubeMapToOctMap

/-! ## Imath vectors -/

/-- Two-component vector (`Imath::V2f`). -/
@[ext]
structure V2 (K : Type) where
  x : K
  y : K
deriving DecidableEq, Repr

/-- Three-component vector (`Imath::V3f`). -/
@[ext]
structure V3 (K : Type) where
  x : K
  y : K
  z : K
deriving DecidableEq, Repr

section Field

variable {K : Type} [LinearOrderedField K]

/-- Squared Euclidean length (`Vec2::length2`). -/
def V2.length2 (v : V2 K) : K := v.x * v.x + v.y * v.y

/-- Euclidean length (`Vec2::length`), with the square root supplied. -/
def V2.length (sqrt : K → K) (v : V2 K) : K := sqrt v.length2

/-- Squared Euclidean length (`Vec3::length2`). -/
def V3.length2 (v : V3 K) : K := v.x * v.x + v.y * v.y + v.z * v.z

/-- Euclidean length (`Vec3::length`), with the square root supplied. -/
def V3.length (sqrt : K → K) (v : V3 K) : K := sqrt v.length2

/-- In-place normalisation (`Vec3::normalize`): a vector of length zero is
left unchanged. -/
def V3.normalize (sqrt : K → K) (v : V3 K) : V3 K :=
  let l := v.length sqrt
  if l ≠ 0 then ⟨v.x / l, v.y / l, v.z / l⟩ else v

/-- Normalised copy (`Vec3::normalized`): a vector of length zero gives the
zero vector. -/
def V3.normalized (sqrt : K → K) (v : V3 K) : V3 K :=
  let l := v.length sqrt
  if l = 0 then ⟨0, 0, 0⟩ else ⟨v.x / l, v.y / l, v.z / l⟩

/-- The function `std::clamp(v, lo, hi)`. -/
def clamp (v lo hi : K) : K := if v < lo then lo else if hi < v then hi else v

/-- The function `Imath::sign`: 1, -1 or 0. -/
def sign (a : K) : K := if a > 0 then 1 else if a < 0 then -1 else 0

/-! ## octmaputil.h -/

/-- The scalar `signNotZero`: zero counts as positive. -/
def signNotZero (k : K) : K := if k ≥ 0 then 1 else -1

/-- The vector overload of `signNotZero`. -/
def signNotZero2 (v : V2 K) : V2 K := ⟨signNotZero v.x, signNotZero v.y⟩

/-- The function `octEncode`: direction to the signed octahedral square. -/
def octEncode (v : V3 K) : V2 K :=
  let l1norm := |v.x| + |v.y| + |v.z|
  let invL1norm := 1 / l1norm
  let result : V2 K := ⟨v.x * invL1norm, v.y * invL1norm⟩
  if v.z < 0 then
    let s := signNotZero2 ⟨result.x, result.y⟩
    ⟨(1 - |result.y|) * s.x, (1 - |result.x|) * s.y⟩
  else
    result

/-- The vector `octDecode` builds before it normalises it. -/
def octDecodeRaw (o : V2 K) : V3 K :=
  let v : V3 K := ⟨o.x, o.y, 1 - |o.x| - |o.y|⟩
  if v.z < 0 then
    ⟨(1 - |o.y|) * signNotZero o.x, (1 - |o.x|) * signNotZero o.y, v.z⟩
  else
    v

/-- The function `octDecode`: signed octahedral square to unit direction. -/
def octDecode (sqrt : K → K) (o : V2 K) : V3 K :=
  (octDecodeRaw o).normalize sqrt

/-! ## cubemaputil.h -/

/-- The compile-time switch `MIRROR_FACES` (defined in the source). -/
def MIRROR_FACES : Bool := true

/-- The function `sampleCube` for either setting of the mirroring switch:
the face-local uv and the face index written through `faceIndex`. -/
def sampleCubeCfg (mirror : Bool) (v : V3 K) : V2 K × Int :=
  let vAbs : V3 K := ⟨|v.x|, |v.y|, |v.z|⟩
  if vAbs.z ≥ vAbs.x ∧ vAbs.z ≥ vAbs.y then
    let faceIndex : Int := if v.z < 0 then 5 else 4
    let ma : K := (1 / 2) / vAbs.z
    let uv : V2 K := ⟨if v.z < 0 then v.x else -v.x, v.y⟩
    let uv : V2 K := if mirror then ⟨-uv.x, uv.y⟩ else uv
    (⟨uv.x * ma + 1 / 2, uv.y * ma + 1 / 2⟩, faceIndex)
  else if vAbs.y ≥ vAbs.x then
    let faceIndex : Int := if v.y < 0 then 3 else 2
    let ma : K := (1 / 2) / vAbs.y
    let uv : V2 K := ⟨v.x, if v.y < 0 then -v.z else v.z⟩
    let uv : V2 K := if mirror then ⟨uv.x, -uv.y⟩ else uv
    (⟨uv.x * ma + 1 / 2, uv.y * ma + 1 / 2⟩, faceIndex)
  else
    let faceIndex : Int := if v.x < 0 then 1 else 0
    let ma : K := (1 / 2) / vAbs.x
    let uv : V2 K := ⟨if v.x < 0 then -v.z else v.z, v.y⟩
    let uv : V2 K := if mirror then ⟨-uv.x, uv.y⟩ else uv
    (⟨uv.x * ma + 1 / 2, uv.y * ma + 1 / 2⟩, faceIndex)

/-- The function `sampleCube` as compiled (mirroring on). -/
def sampleCube (v : V3 K) : V2 K × Int := sampleCubeCfg MIRROR_FACES v

/-- The function `cubeEncode`: `sampleCube` with both uv components clamped
to [0, 1]. -/
def cubeEncode (v : V3 K) : V2 K × Int :=
  let r := sampleCube v
  (⟨clamp r.1.x 0 1, clamp r.1.y 0 1⟩, r.2)

/-- The magnitude `sampleCube` divides by: the absolute value of the component
its branch selects. -/
def dominantAbs (v : V3 K) : K :=
  let vAbs : V3 K := ⟨|v.x|, |v.y|, |v.z|⟩
  if vAbs.z ≥ vAbs.x ∧ vAbs.z ≥ vAbs.y then vAbs.z
  else if vAbs.y ≥ vAbs.x then vAbs.y
  else vAbs.x

/-! ## filter.h -/

/-- The abstract class `Filter`: an evaluation function and a radius. -/
structure Filter (K : Type) where
  Eval : V2 K → K
  GetRadius : K

/-- The class `MitchellFilter`: the two shape constants B and C. -/
structure MitchellFilter (K : Type) where
  b_ : K
  c_ : K

/-- Default constructor of `MitchellFilter`: B = C = 1/3. -/
def MitchellFilter.default : MitchellFilter K := ⟨1 / 3, 1 / 3⟩

/-- The expression `MitchellFilter::Eval` returns in its `d < 1` branch. -/
def MitchellFilter.inner (m : MitchellFilter K) (d : K) : K :=
  let d2 := d * d
  let d3 := d2 * d
  ((12 - 9 * m.b_ - 6 * m.c_) * d3 + (-18 + 12 * m.b_ + 6 * m.c_) * d2 + (6 - 2 * m.b_)) / 6

/-- The expression `MitchellFilter::Eval` returns in its `1 <= d < 2` branch. -/
def MitchellFilter.outer (m : MitchellFilter K) (d : K) : K :=
  let d2 := d * d
  let d3 := d2 * d
  ((-m.b_ - 6 * m.c_) * d3 + (6 * m.b_ + 30 * m.c_) * d2 + (-12 * m.b_ - 48 * m.c_) * d
    + (8 * m.b_ + 24 * m.c_)) / 6

/-- The method `MitchellFilter::Eval`. -/
def MitchellFilter.Eval (sqrt : K → K) (m : MitchellFilter K) (position : V2 K) : K :=
  let d := position.length sqrt
  if d < 1 then m.inner d
  else if d ≥ 1 ∧ d < 2 then m.outer d
  else 0

/-- The method `MitchellFilter::GetRadius`. -/
def MitchellFilter.GetRadius (_m : MitchellFilter K) : K := 2

/-- A `MitchellFilter` seen through the `Filter` interface. -/
def MitchellFilter.toFilter (sqrt : K → K) (m : MitchellFilter K) : Filter K :=
  ⟨m.Eval sqrt, m.GetRadius⟩

/-- The cubic B-spline kernel in the distance `d`, written from its closed
form: (3d^3 - 6d^2 + 4)/6 below 1, (2 - d)^3/6 on [1, 2), 0 beyond. The
comment above the `MitchellFilter` constructor names it for B = 0, C = 1. -/
def cubicBSpline (d : K) : K :=
  if d < 1 then (3 * d ^ 3 - 6 * d ^ 2 + 4) / 6
  else if d ≥ 1 ∧ d < 2 then (2 - d) ^ 3 / 6
  else 0

/-- The Catmull-Rom kernel in the distance `d`, written from its closed form:
1.5d^3 - 2.5d^2 + 1 below 1, -0.5d^3 + 2.5d^2 - 4d + 2 on [1, 2), 0 beyond.
The comment above the `MitchellFilter` constructor names it for B = 0,
C = 0.5. -/
def catmullRom (d : K) : K :=
  if d < 1 then 3 / 2 * d ^ 3 - 5 / 2 * d ^ 2 + 1
  else if d ≥ 1 ∧ d < 2 then -(1 / 2) * d ^ 3 + 5 / 2 * d ^ 2 - 4 * d + 2
  else 0

/-- The class `GaussianFilter`: the radius and the three derived constants. -/
structure GaussianFilter (K : Type) where
  radius_ : K
  a_ : K
  b_ : K
  c_ : K

/-- The constructor `GaussianFilter(sigma, radius)`; `sqrt`, `exp` and `pi`
stand for `std::sqrt`, `std::exp` and `M_PI`. -/
def GaussianFilter.new (sqrt exp : K → K) (pi : K) (sigma radius : K) : GaussianFilter K :=
  let a := 1 / (sqrt (2 * pi) * sigma)
  let b := -1 / (2 * sigma * sigma)
  let c := -a * exp (radius * radius * b)
  ⟨radius, a, b, c⟩

/-- Default constructor of `GaussianFilter`: sigma = 2/3, radius = 2. -/
def GaussianFilter.default (sqrt exp : K → K) (pi : K) : GaussianFilter K :=
  GaussianFilter.new sqrt exp pi (2 / 3) 2

/-- The expression `GaussianFilter::Eval` returns below the radius, as a
function of the squared distance. -/
def GaussianFilter.untruncated (exp : K → K) (g : GaussianFilter K) (d2 : K) : K :=
  g.a_ * exp (d2 * g.b_) + g.c_

/-- The method `GaussianFilter::Eval`. -/
def GaussianFilter.Eval (exp : K → K) (g : GaussianFilter K) (position : V2 K) : K :=
  let d2 := position.length2
  if d2 ≥ g.radius_ * g.radius_ then 0 else g.untruncated exp d2

/-- The method `GaussianFilter::GetRadius`. -/
def GaussianFilter.GetRadius (g : GaussianFilter K) : K := g.radius_

/-- A `GaussianFilter` seen through the `Filter` interface. -/
def GaussianFilter.toFilter (exp : K → K) (g : GaussianFilter K) : Filter K :=
  ⟨g.Eval exp, g.GetRadius⟩

end Field

section Floor

variable {K : Type} [LinearOrderedField K] [FloorRing K]

/-- The cast `int(f)`: truncation toward zero. -/
def truncInt (f : K) : Int := if 0 ≤ f then ⌊f⌋ else ⌈f⌉

/-- The fractional part returned by `std::modf`: it has the sign of its
argument. -/
def modfFrac (f : K) : K := f - (truncInt f : K)

/-- The vector `cubeDecode` builds before it normalises it, for either setting
of the mirroring switch. -/
def cubeDecodeRawCfg (mirror : Bool) (o : V2 K) : V3 K :=
  let u := modfFrac o.x
  let u := if u < 0 then 1 + u else u
  let v := modfFrac o.y
  let v := if v < 0 then 1 + u else v
  let v := v * 2 - 1
  let u := u * 6
  if u < 1 then
    let u := (u - 1 / 2) * 2
    let u := if mirror then -u else u
    ⟨1, v, u⟩
  else if u < 2 then
    let u := (u - 3 / 2) * 2
    let u := if mirror then -u else u
    ⟨-1, v, -u⟩
  else if u < 3 then
    let u := (u - 5 / 2) * 2
    let v := if mirror then -v else v
    ⟨u, 1, v⟩
  else if u < 4 then
    let u := (u - 7 / 2) * 2
    let v := if mirror then -v else v
    ⟨u, -1, -v⟩
  else if u < 5 then
    let u := (u - 9 / 2) * 2
    let u := if mirror then -u else u
    ⟨-u, v, 1⟩
  else
    let u := (u - 11 / 2) * 2
    let u := if mirror then -u else u
    ⟨u, v, -1⟩

/-- The function `cubeDecode` for either setting of the mirroring switch. -/
def cubeDecodeCfg (mirror : Bool) (sqrt : K → K) (o : V2 K) : V3 K :=
  (cubeDecodeRawCfg mirror o).normalized sqrt

/-- The function `cubeDecode` as compiled (mirroring on). -/
def cubeDecode (sqrt : K → K) (o : V2 K) : V3 K := cubeDecodeCfg MIRROR_FACES sqrt o

/-- The horizontal fraction `u` of `cubeDecode` after its wrap: the fractional
part of `o.x`, plus 1 when negative. -/
def cubeDecodeU (o : V2 K) : K :=
  let u := modfFrac o.x
  if u < 0 then 1 + u else u

/-- The vertical fraction `v` of `cubeDecode` after its wrap, as the source
computes it: the fallback for a negative fractional part adds 1 to `u`. -/
def cubeDecodeV (o : V2 K) : K :=
  let u := cubeDecodeU o
  let v := modfFrac o.y
  if v < 0 then 1 + u else v

/-- The six-way face switch of `cubeDecode` on the scaled fractions: `u` is
the horizontal fraction times 6, `v` the vertical fraction times 2 minus 1. -/
def cubeDecodeFaceCfg (mirror : Bool) (u v : K) : V3 K :=
  if u < 1 then
    let u := (u - 1 / 2) * 2
    let u := if mirror then -u else u
    ⟨1, v, u⟩
  else if u < 2 then
    let u := (u - 3 / 2) * 2
    let u := if mirror then -u else u
    ⟨-1, v, -u⟩
  else if u < 3 then
    let u := (u - 5 / 2) * 2
    let v := if mirror then -v else v
    ⟨u, 1, v⟩
  else if u < 4 then
    let u := (u - 7 / 2) * 2
    let v := if mirror then -v else v
    ⟨u, -1, -v⟩
  else if u < 5 then
    let u := (u - 9 / 2) * 2
    let u := if mirror then -u else u
    ⟨-u, v, 1⟩
  else
    let u := (u - 11 / 2) * 2
    let u := if mirror then -u else u
    ⟨u, v, -1⟩

/-! ## main.cc: the per-pixel resampling loop -/

/-- The source image `inputImage[row][column]`: `height` rows of `width * 3`
floats. -/
abbrev Image (K : Type) := Int → Int → K

/-- The enumeration `ResampleType`. -/
inductive ResampleType where
  | NEAREST
  | BILINEAR
  | GAUSSIAN
  | MITCHELL
deriving DecidableEq, Repr

/-- The cell-centre coordinate `octMapCoord` of output pixel (x, y). -/
def octMapCoord (height x y : Int) : V2 K :=
  ⟨(((x : K) + 1 / 2) / (height : K)) * 2 - 1, 1 - (((y : K) + 1 / 2) / (height : K)) * 2⟩

/-- The three floats of pixel `pix` in row `row` of the source image. -/
def fetchRGB (inputImage : Image K) (row pix : Int) : V3 K :=
  ⟨inputImage row (pix * 3 + 0), inputImage row (pix * 3 + 1), inputImage row (pix * 3 + 2)⟩

/-- The pair (`inputPixY`, `inputPixX`) the nearest fetch reads for a face uv. -/
def nearestPixel (height : Int) (cubeMapCoord : V2 K) (face : Int) : Int × Int :=
  let inputPixX := min (height - 1) (truncInt (cubeMapCoord.x * (height : K)))
  let inputPixX := inputPixX + height * face
  let inputPixY := min (height - 1) (truncInt ((1 - cubeMapCoord.y) * (height : K)))
  (inputPixY, inputPixX)

/-- The `NEAREST` branch for the cell with centre `oc`. -/
def resampleNearest (sqrt : K → K) (inputImage : Image K) (height : Int) (oc : V2 K) : V3 K :=
  let r := cubeEncode (octDecode sqrt oc)
  let p := nearestPixel height r.1 r.2
  fetchRGB inputImage p.1 p.2

/-- The `BILINEAR` branch for the cell with centre `oc`. -/
def resampleBilinear (sqrt : K → K) (inputImage : Image K) (height : Int) (oc : V2 K) : V3 K :=
  let r := cubeEncode (octDecode sqrt oc)
  let face := r.2
  let xCoord := r.1.x * (height : K)
  let yCoord := (1 - r.1.y) * (height : K)
  let lowX := max 0 (truncInt (xCoord - 1 / 2))
  let lowY := max 0 (truncInt (yCoord - 1 / 2))
  let highX := min (height - 1) (lowX + 1)
  let highY := min (height - 1) (lowY + 1)
  let hFrac := xCoord - ((lowX : K) + 1 / 2)
  let vFrac := yCoord - ((lowY : K) + 1 / 2)
  let lowX := lowX + height * face
  let highX := highX + height * face
  let chan : Int → K := fun c =>
    let topleft := inputImage lowY (lowX * 3 + c)
    let topright := inputImage lowY (highX * 3 + c)
    let bottomleft := inputImage highY (lowX * 3 + c)
    let bottomright := inputImage highY (highX * 3 + c)
    (topleft * (1 - hFrac) + topright * hFrac) * (1 - vFrac)
      + (bottomleft * (1 - hFrac) + bottomright * hFrac) * vFrac
  ⟨chan 0, chan 1, chan 2⟩

/-- The indices ((`lowY`, `highY`), (`lowX`, `highX`)) of the four bilinear
taps for a face uv, the two pixel columns already offset by `height * face`. -/
def bilinearPixels (height : Int) (cubeMapCoord : V2 K) (face : Int) :
    (Int × Int) × (Int × Int) :=
  let xCoord := cubeMapCoord.x * (height : K)
  let yCoord := (1 - cubeMapCoord.y) * (height : K)
  let lowX := max 0 (truncInt (xCoord - 1 / 2))
  let lowY := max 0 (truncInt (yCoord - 1 / 2))
  let highX := min (height - 1) (lowX + 1)
  let highY := min (height - 1) (lowY + 1)
  let lowX := lowX + height * face
  let highX := highX + height * face
  ((lowY, highY), (lowX, highX))

/-- The blend fractions (`hFrac`, `vFrac`) of the bilinear branch for a face
uv. -/
def bilinearFrac (height : Int) (cubeMapCoord : V2 K) : K × K :=
  let xCoord := cubeMapCoord.x * (height : K)
  let yCoord := (1 - cubeMapCoord.y) * (height : K)
  let lowX := max 0 (truncInt (xCoord - 1 / 2))
  let lowY := max 0 (truncInt (yCoord - 1 / 2))
  let hFrac := xCoord - ((lowX : K) + 1 / 2)
  let vFrac := yCoord - ((lowY : K) + 1 / 2)
  (hFrac, vFrac)

/-- Channel `c` of the bilinear blend: the four reads at the rows and pixel
columns `p` = ((`lowY`, `highY`), (`lowX`, `highX`)), weighted by the fractions
`fr` = (`hFrac`, `vFrac`). -/
def bilinearChannel (inputImage : Image K) (p : (Int × Int) × (Int × Int)) (fr : K × K)
    (c : Int) : K :=
  let topleft := inputImage p.1.1 (p.2.1 * 3 + c)
  let topright := inputImage p.1.1 (p.2.2 * 3 + c)
  let bottomleft := inputImage p.1.2 (p.2.1 * 3 + c)
  let bottomright := inputImage p.1.2 (p.2.2 * 3 + c)
  (topleft * (1 - fr.1) + topright * fr.1) * (1 - fr.2)
    + (bottomleft * (1 - fr.1) + bottomright * fr.1) * fr.2

/-- The constant `supportExtent`. -/
def supportExtent : Int := 3

/-- The values the loop variables `xOfst` and `yOfst` take. -/
def tapRange : List Int := [-3, -2, -1, 0, 1, 2, 3]

/-- The taps in the order the two nested loops visit them (`xOfst` outer). -/
def windowTaps : List (Int × Int) :=
  tapRange.flatMap fun xOfst => tapRange.map fun yOfst => (xOfst, yOfst)

/-- The tap offset `pixelOfst`, in output-pixel units. -/
def pixelOfst (radius : K) (t : Int × Int) : V2 K :=
  ⟨(t.1 : K) * radius / ((supportExtent : K) + 1), (t.2 : K) * radius / ((supportExtent : K) + 1)⟩

/-- Body of the first wrap-over `if`: reflect x, negate y. -/
def wrapX (c : V2 K) : V2 K :=
  let overlap := |c.x| - 1
  ⟨sign c.x - overlap, -c.y⟩

/-- Body of the second wrap-over `if`: reflect y, negate x. -/
def wrapY (c : V2 K) : V2 K :=
  let overlap := |c.y| - 1
  ⟨-c.x, sign c.y - overlap⟩

/-- The two guarded wrap-over corrections, x first. -/
def wrapover (c : V2 K) : V2 K :=
  let c := if |c.x| > 1 then wrapX c else c
  if |c.y| > 1 then wrapY c else c

/-- The coordinate `octMapSampleCoord` of a tap after the wrap-over. -/
def tapCoord (height : Int) (oc : V2 K) (ofst : V2 K) : V2 K :=
  let octCoordOfst : V2 K := ⟨ofst.x * (2 / (height : K)), ofst.y * (2 / (height : K))⟩
  wrapover ⟨oc.x + octCoordOfst.x, oc.y + octCoordOfst.y⟩

/-- The pair (`inputPixY`, `inputPixX`) a windowed tap reads. -/
def tapPixel (sqrt : K → K) (height : Int) (oc : V2 K) (ofst : V2 K) : Int × Int :=
  let r := cubeEncode (octDecode sqrt (tapCoord height oc ofst))
  nearestPixel height r.1 r.2

/-- One iteration of the inner windowed loop on the accumulators
(`col`, `weight`). -/
def windowedStep (sqrt : K → K) (filter : Filter K) (inputImage : Image K) (height : Int)
    (oc : V2 K) (acc : V3 K × K) (t : Int × Int) : V3 K × K :=
  let ofst := pixelOfst filter.GetRadius t
  let p := tapPixel sqrt height oc ofst
  let sampleCol := fetchRGB inputImage p.1 p.2
  let filterWeight := filter.Eval ofst
  let weight := acc.2 + filterWeight
  let col : V3 K := ⟨acc.1.x + sampleCol.x * filterWeight, acc.1.y + sampleCol.y * filterWeight,
    acc.1.z + sampleCol.z * filterWeight⟩
  (col, weight)

/-- The accumulators after all 49 taps. -/
def windowedAccum (sqrt : K → K) (filter : Filter K) (inputImage : Image K) (height : Int)
    (oc : V2 K) : V3 K × K :=
  windowTaps.foldl (windowedStep sqrt filter inputImage height oc) (⟨0, 0, 0⟩, 0)

/-- The windowed (`GAUSSIAN`/`MITCHELL`) branch for the cell with centre `oc`:
the accumulated colour divided by the accumulated weight. -/
def resampleWindowed (sqrt : K → K) (filter : Filter K) (inputImage : Image K) (height : Int)
    (oc : V2 K) : V3 K :=
  let acc := windowedAccum sqrt filter inputImage height oc
  ⟨acc.1.x / acc.2, acc.1.y / acc.2, acc.1.z / acc.2⟩

/-- The colour the loop body computes for output pixel (x, y), before the
optional transform and encode stages. -/
def resamplePixel (sqrt : K → K) (resample : ResampleType) (filter : Filter K)
    (inputImage : Image K) (height x y : Int) : V3 K :=
  let oc : V2 K := octMapCoord height x y
  match resample with
  | ResampleType.NEAREST => resampleNearest sqrt inputImage height oc
  | ResampleType.BILINEAR => resampleBilinear sqrt inputImage height oc
  | _ => resampleWindowed sqrt filter inputImage height oc

/-- The output image as a list of rows (row 0 first), each a list of pixels. -/
def resampleImage (sqrt : K → K) (resample : ResampleType) (filter : Filter K)
    (inputImage : Image K) (height : Nat) : List (List (V3 K)) :=
  (List.range height).map fun y => (List.range height).map fun x =>
    resamplePixel sqrt resample filter inputImage (height : Int) (x : Int) (y : Int)

end Floor

/-! ## Helper lemmas -/

section Lemmas

variable {K : Type} [LinearOrderedField K]

theorem signNotZero_of_nonneg {k : K} (h : 0 ≤ k) : signNotZero k = 1 := by
  simp [signNotZero, h]

theorem signNotZero_of_neg {k : K} (h : k < 0) : signNotZero k = -1 := by
  simp [signNotZero, not_le.mpr h]

theorem signNotZero_mul_abs (k : K) : |k| * signNotZero k = k := by
  rcases le_or_lt 0 k with h | h
  · rw [signNotZero_of_nonneg h, abs_of_nonneg h, mul_one]
  · rw [signNotZero_of_neg h, abs_of_neg h]; ring

theorem signNotZero_pos_mul {p k : K} (hp : 0 < p) :
    signNotZero (p * signNotZero k) = signNotZero k := by
  rcases le_or_lt 0 k with h | h
  · rw [signNotZero_of_nonneg h, mul_one, signNotZero_of_nonneg hp.le]
  · rw [signNotZero_of_neg h]
    exact signNotZero_of_neg (by linarith)

theorem abs_signNotZero (k : K) : |signNotZero k| = 1 := by
  rcases le_or_lt 0 k with h | h
  · rw [signNotZero_of_nonneg h, abs_one]
  · rw [signNotZero_of_neg h, abs_neg, abs_one]

theorem length2_nonneg3 (v : V3 K) : 0 ≤ v.length2 := by
  unfold V3.length2
  nlinarith [mul_self_nonneg v.x, mul_self_nonneg v.y, mul_self_nonneg v.z]

theorem length2_pos3 {v : V3 K} (hv : v ≠ ⟨0, 0, 0⟩) : 0 < v.length2 := by
  rcases lt_or_eq_of_le (length2_nonneg3 v) with h | h
  · exact h
  · exfalso
    apply hv
    unfold V3.length2 at h
    have hx : v.x = 0 := by nlinarith [mul_self_nonneg v.x, mul_self_nonneg v.y, mul_self_nonneg v.z]
    have hy : v.y = 0 := by nlinarith [mul_self_nonneg v.x, mul_self_nonneg v.y, mul_self_nonneg v.z]
    have hz : v.z = 0 := by nlinarith [mul_self_nonneg v.x, mul_self_nonneg v.y, mul_self_nonneg v.z]
    exact V3.ext hx hy hz

theorem l1norm_pos {v : V3 K} (hv : v ≠ ⟨0, 0, 0⟩) : 0 < |v.x| + |v.y| + |v.z| := by
  rcases lt_or_eq_of_le (add_nonneg (add_nonneg (abs_nonneg v.x) (abs_nonneg v.y))
    (abs_nonneg v.z)) with h | h
  · exact h
  · exfalso
    apply hv
    have hx : |v.x| = 0 := by linarith [abs_nonneg v.x, abs_nonneg v.y, abs_nonneg v.z]
    have hy : |v.y| = 0 := by linarith [abs_nonneg v.x, abs_nonneg v.y, abs_nonneg v.z]
    have hz : |v.z| = 0 := by linarith [abs_nonneg v.x, abs_nonneg v.y, abs_nonneg v.z]
    exact V3.ext (abs_eq_zero.mp hx) (abs_eq_zero.mp hy) (abs_eq_zero.mp hz)

/-- Unfolding a folded point: decoding the corner image of (a, b) gives back
(a, b) with the negative height |a| + |b| - 1. -/
theorem octDecodeRaw_fold (a b : K) (ha : |a| < 1) (hb : |b| < 1) (h : 1 < (1 - |b|) + (1 - |a|)) :
    octDecodeRaw (⟨(1 - |b|) * signNotZero a, (1 - |a|) * signNotZero b⟩ : V2 K)
      = ⟨a, b, |a| + |b| - 1⟩ := by
  have hb' : 0 < 1 - |b| := by linarith
  have ha' : 0 < 1 - |a| := by linarith
  have e1 : |(1 - |b|) * signNotZero a| = 1 - |b| := by
    rw [abs_mul, abs_signNotZero, mul_one, abs_of_pos hb']
  have e2 : |(1 - |a|) * signNotZero b| = 1 - |a| := by
    rw [abs_mul, abs_signNotZero, mul_one, abs_of_pos ha']
  unfold octDecodeRaw
  simp only [e1, e2, signNotZero_pos_mul hb', signNotZero_pos_mul ha']
  rw [if_pos (by linarith)]
  have hsa := signNotZero_mul_abs a
  have hsb := signNotZero_mul_abs b
  ext
  · simpa using hsa
  · simpa using hsb
  · simp only; ring

/-- Before normalisation, decoding an encoded non-zero vector gives the vector
divided by its L1 norm. -/
theorem octDecodeRaw_octEncode (v : V3 K) (hv : v ≠ ⟨0, 0, 0⟩) :
    octDecodeRaw (octEncode v)
      = ⟨v.x / (|v.x| + |v.y| + |v.z|), v.y / (|v.x| + |v.y| + |v.z|),
          v.z / (|v.x| + |v.y| + |v.z|)⟩ := by
  have hL := l1norm_pos hv
  set L := |v.x| + |v.y| + |v.z| with hLdef
  have hLne : L ≠ 0 := hL.ne'
  have eax : |v.x * (1 / L)| = |v.x| / L := by
    rw [abs_mul, abs_of_pos (one_div_pos.mpr hL)]; ring
  have eay : |v.y * (1 / L)| = |v.y| / L := by
    rw [abs_mul, abs_of_pos (one_div_pos.mpr hL)]; ring
  have hsum : |v.x| / L + |v.y| / L + |v.z| / L = 1 := by
    rw [← add_div, ← add_div, ← hLdef]; exact div_self hLne
  unfold octEncode
  simp only [← hLdef]
  by_cases hz : v.z < 0
  · rw [if_pos hz]
    have hzabs : |v.z| = -v.z := abs_of_neg hz
    have hzpos : 0 < |v.z| / L := div_pos (abs_pos.mpr hz.ne) hL
    have hxn : 0 ≤ |v.x| / L := div_nonneg (abs_nonneg _) hL.le
    have hyn : 0 ≤ |v.y| / L := div_nonneg (abs_nonneg _) hL.le
    simp only [signNotZero2]
    rw [octDecodeRaw_fold _ _ (by rw [eax]; linarith) (by rw [eay]; linarith)
      (by rw [eax, eay]; linarith)]
    ext
    · simp only; ring
    · simp only; ring
    · simp only
      rw [eax, eay]
      have : v.z / L = -(|v.z| / L) := by rw [hzabs]; ring
      rw [this]; linarith
  · rw [if_neg hz]
    have hz0 : 0 ≤ v.z := not_lt.mp hz
    have hzabs : |v.z| = v.z := abs_of_nonneg hz0
    have hzn : 0 ≤ |v.z| / L := div_nonneg (abs_nonneg _) hL.le
    unfold octDecodeRaw
    simp only [eax, eay]
    have e : 1 - |v.x| / L - |v.y| / L = v.z / L := by rw [← hzabs]; linarith
    rw [e, if_neg (not_lt.mpr (by rw [← hzabs]; exact hzn))]
    ext
    · simp only; ring
    · simp only; ring
    · simp only

/-- Over the reals, `normalize` divides a non-zero vector by its Euclidean
length. -/
theorem normalize_real {v : V3 ℝ} (hv : v ≠ ⟨0, 0, 0⟩) :
    v.normalize Real.sqrt
      = ⟨v.x / Real.sqrt v.length2, v.y / Real.sqrt v.length2, v.z / Real.sqrt v.length2⟩ := by
  have h : Real.sqrt v.length2 ≠ 0 := (Real.sqrt_pos.mpr (length2_pos3 hv)).ne'
  unfold V3.normalize V3.length
  simp only [ne_eq, h, not_false_eq_true, if_true]

/-- Over the reals, `normalized` divides a non-zero vector by its Euclidean
length. -/
theorem normalized_real {v : V3 ℝ} (hv : v ≠ ⟨0, 0, 0⟩) :
    v.normalized Real.sqrt
      = ⟨v.x / Real.sqrt v.length2, v.y / Real.sqrt v.length2, v.z / Real.sqrt v.length2⟩ := by
  have h : Real.sqrt v.length2 ≠ 0 := (Real.sqrt_pos.mpr (length2_pos3 hv)).ne'
  unfold V3.normalized V3.length
  simp only [h, if_false]

/-- Dividing a non-zero vector by a positive scalar leaves it non-zero. -/
theorem div_vec_ne_zero {v : V3 ℝ} (hv : v ≠ ⟨0, 0, 0⟩) {c : ℝ} (hc : 0 < c) :
    (⟨v.x / c, v.y / c, v.z / c⟩ : V3 ℝ) ≠ ⟨0, 0, 0⟩ := by
  intro h
  apply hv
  injection h with h1 h2 h3
  have hc0 : c ≠ 0 := hc.ne'
  rw [div_eq_zero_iff] at h1 h2 h3
  ext
  · exact h1.resolve_right hc0
  · exact h2.resolve_right hc0
  · exact h3.resolve_right hc0

/-- Euclidean length of `v / c` for positive `c`. -/
theorem length_div_vec (v : V3 ℝ) {c : ℝ} (hc : 0 < c) :
    Real.sqrt (⟨v.x / c, v.y / c, v.z / c⟩ : V3 ℝ).length2 = Real.sqrt v.length2 / c := by
  have : (⟨v.x / c, v.y / c, v.z / c⟩ : V3 ℝ).length2 = v.length2 / (c * c) := by
    unfold V3.length2; field_simp
  rw [this, Real.sqrt_div (length2_nonneg3 v), Real.sqrt_mul_self hc.le]

/-- Over the reals, normalising a positive multiple `v / c` of a non-zero
vector gives `v` over its Euclidean length. -/
theorem normalize_div_real {v : V3 ℝ} (hv : v ≠ ⟨0, 0, 0⟩) {c : ℝ} (hc : 0 < c) :
    (⟨v.x / c, v.y / c, v.z / c⟩ : V3 ℝ).normalize Real.sqrt
      = ⟨v.x / Real.sqrt v.length2, v.y / Real.sqrt v.length2, v.z / Real.sqrt v.length2⟩ := by
  have hl := Real.sqrt_pos.mpr (length2_pos3 hv)
  rw [normalize_real (div_vec_ne_zero hv hc), length_div_vec v hc]
  ext
  · simp only; field_simp
  · simp only; field_simp
  · simp only; field_simp

/-- Over the reals, `normalized` of `v / c` for non-zero `v` and positive `c`
is `v` over its Euclidean length. -/
theorem normalized_div_real {v : V3 ℝ} (hv : v ≠ ⟨0, 0, 0⟩) {c : ℝ} (hc : 0 < c) :
    (⟨v.x / c, v.y / c, v.z / c⟩ : V3 ℝ).normalized Real.sqrt
      = ⟨v.x / Real.sqrt v.length2, v.y / Real.sqrt v.length2, v.z / Real.sqrt v.length2⟩ := by
  have hl := Real.sqrt_pos.mpr (length2_pos3 hv)
  rw [normalized_real (div_vec_ne_zero hv hc), length_div_vec v hc]
  ext
  · simp only; field_simp
  · simp only; field_simp
  · simp only; field_simp

end Lemmas

/-! ## Settled claims -/

/-- C1. Octahedral round trip in exact real arithmetic: for every non-zero
direction `v`, `octDecode (octEncode v)` is `v` divided by its Euclidean
length (whether `v.z` is negative, the folded branch, or not), and for a unit
vector it is `v` itself. -/
theorem octDecode_octEncode_roundtrip (v : V3 ℝ) (hv : v ≠ ⟨0, 0, 0⟩) :
    octDecode Real.sqrt (octEncode v)
        = ⟨v.x / v.length Real.sqrt, v.y / v.length Real.sqrt, v.z / v.length Real.sqrt⟩
      ∧ (v.length Real.sqrt = 1 → octDecode Real.sqrt (octEncode v) = v) := by
  have main : octDecode Real.sqrt (octEncode v)
      = ⟨v.x / v.length Real.sqrt, v.y / v.length Real.sqrt, v.z / v.length Real.sqrt⟩ := by
    unfold octDecode
    rw [octDecodeRaw_octEncode v hv]
    exact normalize_div_real hv (l1norm_pos hv)
  refine ⟨main, fun h1 => ?_⟩
  rw [main, h1]
  ext <;> simp

/-- Witness for C1 at the non-unit vector (1, 2, -2) of the folded branch. -/
theorem octDecode_octEncode_roundtrip_witness :
    octDecode Real.sqrt (octEncode (⟨1, 2, -2⟩ : V3 ℝ))
      = ⟨1 / V3.length Real.sqrt ⟨1, 2, -2⟩, 2 / V3.length Real.sqrt ⟨1, 2, -2⟩,
          -2 / V3.length Real.sqrt ⟨1, 2, -2⟩⟩ :=
  (octDecode_octEncode_roundtrip ⟨1, 2, -2⟩ (by simp)).1

/-- C3. Face enumeration: on the six axis directions `sampleCube` and
`cubeEncode` give face 0 for +X, 1 for -X, 2 for +Y, 3 for -Y, 4 for +Z and
5 for -Z, each with uv = (1/2, 1/2). -/
theorem cubeEncode_axis_faces :
    (sampleCube (⟨1, 0, 0⟩ : V3 ℝ) = (⟨1 / 2, 1 / 2⟩, 0)
      ∧ cubeEncode (⟨1, 0, 0⟩ : V3 ℝ) = (⟨1 / 2, 1 / 2⟩, 0))
    ∧ (sampleCube (⟨-1, 0, 0⟩ : V3 ℝ) = (⟨1 / 2, 1 / 2⟩, 1)
      ∧ cubeEncode (⟨-1, 0, 0⟩ : V3 ℝ) = (⟨1 / 2, 1 / 2⟩, 1))
    ∧ (sampleCube (⟨0, 1, 0⟩ : V3 ℝ) = (⟨1 / 2, 1 / 2⟩, 2)
      ∧ cubeEncode (⟨0, 1, 0⟩ : V3 ℝ) = (⟨1 / 2, 1 / 2⟩, 2))
    ∧ (sampleCube (⟨0, -1, 0⟩ : V3 ℝ) = (⟨1 / 2, 1 / 2⟩, 3)
      ∧ cubeEncode (⟨0, -1, 0⟩ : V3 ℝ) = (⟨1 / 2, 1 / 2⟩, 3))
    ∧ (sampleCube (⟨0, 0, 1⟩ : V3 ℝ) = (⟨1 / 2, 1 / 2⟩, 4)
      ∧ cubeEncode (⟨0, 0, 1⟩ : V3 ℝ) = (⟨1 / 2, 1 / 2⟩, 4))
    ∧ (sampleCube (⟨0, 0, -1⟩ : V3 ℝ) = (⟨1 / 2, 1 / 2⟩, 5)
      ∧ cubeEncode (⟨0, 0, -1⟩ : V3 ℝ) = (⟨1 / 2, 1 / 2⟩, 5)) := by
  refine ⟨⟨?_, ?_⟩, ⟨?_, ?_⟩, ⟨?_, ?_⟩, ⟨?_, ?_⟩, ⟨?_, ?_⟩, ⟨?_, ?_⟩⟩ <;>
    norm_num [cubeEncode, sampleCube, sampleCubeCfg, MIRROR_FACES, clamp]

/-- The face index `sampleCube` writes, for either mirroring setting. -/
theorem sampleCubeCfg_face {K : Type} [LinearOrderedField K] (mirror : Bool) (v : V3 K) :
    (sampleCubeCfg mirror v).2
      = if |v.z| ≥ |v.x| ∧ |v.z| ≥ |v.y| then (if v.z < 0 then 5 else 4)
        else if |v.y| ≥ |v.x| then (if v.y < 0 then 3 else 2)
        else (if v.x < 0 then 1 else 0) := by
  simp only [sampleCubeCfg]
  split_ifs <;> simp only

/-- The face index `cubeEncode` writes is the one `sampleCube` writes. -/
theorem cubeEncode_face {K : Type} [LinearOrderedField K] (v : V3 K) :
    (cubeEncode v).2 = (sampleCube v).2 := by
  simp only [cubeEncode]

/-- C4. Dominant-axis tie-break Z > Y > X: `sampleCube` returns a face in
{4, 5} exactly when |z| >= |x| and |z| >= |y|; otherwise a face in {2, 3}
exactly when |y| >= |x|; otherwise a face in {0, 1}; within the pair the odd
face is returned exactly when the dominant component is strictly negative;
`cubeEncode` returns the same face; (1,1,1) gives face 4 and (1,1,0) face 2. -/
theorem sampleCube_face_tiebreak {K : Type} [LinearOrderedField K] (v : V3 K) :
    (((sampleCube v).2 = 4 ∨ (sampleCube v).2 = 5) ↔ (|v.z| ≥ |v.x| ∧ |v.z| ≥ |v.y|))
    ∧ (((sampleCube v).2 = 2 ∨ (sampleCube v).2 = 3)
        ↔ (¬(|v.z| ≥ |v.x| ∧ |v.z| ≥ |v.y|) ∧ |v.y| ≥ |v.x|))
    ∧ (((sampleCube v).2 = 0 ∨ (sampleCube v).2 = 1)
        ↔ (¬(|v.z| ≥ |v.x| ∧ |v.z| ≥ |v.y|) ∧ ¬(|v.y| ≥ |v.x|)))
    ∧ ((sampleCube v).2 = 5 ↔ ((|v.z| ≥ |v.x| ∧ |v.z| ≥ |v.y|) ∧ v.z < 0))
    ∧ ((sampleCube v).2 = 3
        ↔ (¬(|v.z| ≥ |v.x| ∧ |v.z| ≥ |v.y|) ∧ |v.y| ≥ |v.x| ∧ v.y < 0))
    ∧ ((sampleCube v).2 = 1
        ↔ (¬(|v.z| ≥ |v.x| ∧ |v.z| ≥ |v.y|) ∧ ¬(|v.y| ≥ |v.x|) ∧ v.x < 0))
    ∧ (cubeEncode v).2 = (sampleCube v).2
    ∧ (sampleCube (⟨1, 1, 1⟩ : V3 K)).2 = 4
    ∧ (sampleCube (⟨1, 1, 0⟩ : V3 K)).2 = 2 := by
  have hface := sampleCubeCfg_face MIRROR_FACES v
  rw [← sampleCube] at hface
  refine ⟨?_, ?_, ?_, ?_, ?_, ?_, cubeEncode_face v, ?_, ?_⟩
  · rw [hface]; split_ifs <;> simp_all
  · rw [hface]; split_ifs <;> simp_all
  · rw [hface]; split_ifs <;> simp_all
  · rw [hface]; split_ifs <;> simp_all
  · rw [hface]; split_ifs <;> simp_all
  · rw [hface]; split_ifs <;> simp_all
  · norm_num [sampleCube, sampleCubeCfg]
  · norm_num [sampleCube, sampleCubeCfg]

/-- The dominant magnitude of a non-zero vector is positive. -/
theorem dominantAbs_pos {K : Type} [LinearOrderedField K] {v : V3 K} (hv : v ≠ ⟨0, 0, 0⟩) :
    0 < dominantAbs v := by
  have hL := l1norm_pos hv
  unfold dominantAbs
  simp only
  split_ifs with h1 h2
  · linarith [h1.1, h1.2]
  · rcases lt_or_eq_of_le (abs_nonneg v.y) with h | h
    · exact h
    · exfalso; apply h1
      rw [← h] at h2
      have hx : |v.x| = 0 := le_antisymm h2 (abs_nonneg _)
      rw [hx, ← h]; exact ⟨abs_nonneg _, abs_nonneg _⟩
  · linarith [abs_nonneg v.y]

/-- C5. Mirrored face uv formula: for non-zero `v` with dominant magnitude
`m`, `sampleCube` returns (1/2 - z/(2m), 1/2 + y/(2m)) on face 0,
(1/2 + z/(2m), 1/2 + y/(2m)) on face 1, (1/2 + x/(2m), 1/2 - z/(2m)) on
face 2, (1/2 + x/(2m), 1/2 + z/(2m)) on face 3, (1/2 + x/(2m), 1/2 + y/(2m))
on face 4 and (1/2 - x/(2m), 1/2 + y/(2m)) on face 5; compared with the
unmirrored projection the face is the same, the horizontal coordinate is
reflected about 1/2 on faces 0, 1, 4, 5 and the vertical one on faces 2, 3. -/
theorem sampleCube_uv_formula {K : Type} [LinearOrderedField K] (v : V3 K)
    (hv : v ≠ ⟨0, 0, 0⟩) :
    0 < dominantAbs v
    ∧ ((sampleCube v).2 = 0 → (sampleCube v).1
        = ⟨1 / 2 - v.z / (2 * dominantAbs v), 1 / 2 + v.y / (2 * dominantAbs v)⟩)
    ∧ ((sampleCube v).2 = 1 → (sampleCube v).1
        = ⟨1 / 2 + v.z / (2 * dominantAbs v), 1 / 2 + v.y / (2 * dominantAbs v)⟩)
    ∧ ((sampleCube v).2 = 2 → (sampleCube v).1
        = ⟨1 / 2 + v.x / (2 * dominantAbs v), 1 / 2 - v.z / (2 * dominantAbs v)⟩)
    ∧ ((sampleCube v).2 = 3 → (sampleCube v).1
        = ⟨1 / 2 + v.x / (2 * dominantAbs v), 1 / 2 + v.z / (2 * dominantAbs v)⟩)
    ∧ ((sampleCube v).2 = 4 → (sampleCube v).1
        = ⟨1 / 2 + v.x / (2 * dominantAbs v), 1 / 2 + v.y / (2 * dominantAbs v)⟩)
    ∧ ((sampleCube v).2 = 5 → (sampleCube v).1
        = ⟨1 / 2 - v.x / (2 * dominantAbs v), 1 / 2 + v.y / (2 * dominantAbs v)⟩)
    ∧ (sampleCubeCfg false v).2 = (sampleCube v).2
    ∧ ((sampleCube v).2 ∈ [0, 1, 4, 5] →
        (sampleCube v).1.x - 1 / 2 = -((sampleCubeCfg false v).1.x - 1 / 2)
        ∧ (sampleCube v).1.y = (sampleCubeCfg false v).1.y)
    ∧ ((sampleCube v).2 ∈ [2, 3] →
        (sampleCube v).1.x = (sampleCubeCfg false v).1.x
        ∧ (sampleCube v).1.y - 1 / 2 = -((sampleCubeCfg false v).1.y - 1 / 2)) := by
  refine ⟨dominantAbs_pos hv, ?_⟩
  unfold sampleCube sampleCubeCfg dominantAbs MIRROR_FACES
  simp only [if_true, List.mem_cons, List.mem_singleton, List.not_mem_nil, or_false]
  by_cases hZ : |v.z| ≥ |v.x| ∧ |v.z| ≥ |v.y|
  · simp only [hZ, and_self, if_true]
    by_cases hz : v.z < 0
    · simp only [hz, if_true]
      norm_num
      ring_nf
      simp
    · simp only [hz, if_false]
      norm_num
      ring_nf
      simp
  · simp only [hZ, if_false]
    by_cases hY : |v.y| ≥ |v.x|
    · simp only [hY, if_true]
      by_cases hy : v.y < 0
      · simp only [hy, if_true]
        norm_num
        ring_nf
        simp
      · simp only [hy, if_false]
        norm_num
        ring_nf
        simp
    · simp only [hY, if_false]
      by_cases hx : v.x < 0
      · simp only [hx, if_true]
        norm_num
        ring_nf
        simp
      · simp only [hx, if_false]
        norm_num
        ring_nf
        simp

/-- Witness for C5 at (1, 2, -3), which lies on face 5. -/
theorem sampleCube_uv_formula_witness :
    (sampleCube (⟨1, 2, -3⟩ : V3 ℚ)).1
      = ⟨1 / 2 - 1 / (2 * dominantAbs (⟨1, 2, -3⟩ : V3 ℚ)),
          1 / 2 + 2 / (2 * dominantAbs (⟨1, 2, -3⟩ : V3 ℚ))⟩ :=
  (sampleCube_uv_formula (⟨1, 2, -3⟩ : V3 ℚ) (by decide)).2.2.2.2.2.2.1 (by decide)

/-! ### Cube round trip -/

/-- On [0, 1) `std::modf` returns its argument as the fractional part. -/
theorem modfFrac_of_mem {K : Type} [LinearOrderedField K] [FloorRing K] {t : K}
    (h0 : 0 ≤ t) (h1 : t < 1) : modfFrac t = t := by
  have hf : ⌊t⌋ = 0 := Int.floor_eq_zero_iff.mpr ⟨h0, h1⟩
  unfold modfFrac truncInt
  rw [if_pos h0, hf]
  simp

/-- The un-normalised vector `cubeDecode` builds on each face slot: the packed
coordinate ((f + a) / 6, b) with f the face and a, b in [0, 1). -/
theorem cubeDecodeRaw_slot {K : Type} [LinearOrderedField K] [FloorRing K] (a b : K)
    (ha0 : 0 ≤ a) (ha1 : a < 1) (hb0 : 0 ≤ b) (hb1 : b < 1) :
    cubeDecodeRawCfg true ⟨(0 + a) / 6, b⟩ = ⟨1, 2 * b - 1, 1 - 2 * a⟩
    ∧ cubeDecodeRawCfg true ⟨(1 + a) / 6, b⟩ = ⟨-1, 2 * b - 1, 2 * a - 1⟩
    ∧ cubeDecodeRawCfg true ⟨(2 + a) / 6, b⟩ = ⟨2 * a - 1, 1, 1 - 2 * b⟩
    ∧ cubeDecodeRawCfg true ⟨(3 + a) / 6, b⟩ = ⟨2 * a - 1, -1, 2 * b - 1⟩
    ∧ cubeDecodeRawCfg true ⟨(4 + a) / 6, b⟩ = ⟨2 * a - 1, 2 * b - 1, 1⟩
    ∧ cubeDecodeRawCfg true ⟨(5 + a) / 6, b⟩ = ⟨1 - 2 * a, 2 * b - 1, -1⟩ := by
  have hb := modfFrac_of_mem hb0 hb1
  have key : ∀ f : K, 0 ≤ f → f ≤ 5 → modfFrac ((f + a) / 6) * 6 = f + a
      ∧ ¬ modfFrac ((f + a) / 6) < 0 := by
    intro f hf0 hf5
    have h0 : 0 ≤ (f + a) / 6 := by positivity
    have h1 : (f + a) / 6 < 1 := by rw [div_lt_one (by norm_num)]; linarith
    rw [modfFrac_of_mem h0 h1]
    exact ⟨by ring, not_lt.mpr h0⟩
  have hb' : ¬ b < 0 := not_lt.mpr hb0
  refine ⟨?_, ?_, ?_, ?_, ?_, ?_⟩
  · obtain ⟨e, n⟩ := key 0 le_rfl (by norm_num)
    simp only [cubeDecodeRawCfg, hb, hb', n, e, if_false, if_true]
    rw [if_pos (by linarith)]
    ext <;> simp only <;> ring
  · obtain ⟨e, n⟩ := key 1 (by norm_num) (by norm_num)
    simp only [cubeDecodeRawCfg, hb, hb', n, e, if_false, if_true]
    rw [if_neg (by linarith), if_pos (by linarith)]
    ext <;> simp only <;> ring
  · obtain ⟨e, n⟩ := key 2 (by norm_num) (by norm_num)
    simp only [cubeDecodeRawCfg, hb, hb', n, e, if_false, if_true]
    rw [if_neg (by linarith), if_neg (by linarith), if_pos (by linarith)]
    ext <;> simp only <;> ring
  · obtain ⟨e, n⟩ := key 3 (by norm_num) (by norm_num)
    simp only [cubeDecodeRawCfg, hb, hb', n, e, if_false, if_true]
    rw [if_neg (by linarith), if_neg (by linarith), if_neg (by linarith), if_pos (by linarith)]
    ext <;> simp only <;> ring
  · obtain ⟨e, n⟩ := key 4 (by norm_num) (by norm_num)
    simp only [cubeDecodeRawCfg, hb, hb', n, e, if_false, if_true]
    rw [if_neg (by linarith), if_neg (by linarith), if_neg (by linarith), if_neg (by linarith),
      if_pos (by linarith)]
    ext <;> simp only <;> ring
  · obtain ⟨e, n⟩ := key 5 (by norm_num) le_rfl
    simp only [cubeDecodeRawCfg, hb, hb', n, e, if_false, if_true]
    rw [if_neg (by linarith), if_neg (by linarith), if_neg (by linarith), if_neg (by linarith),
      if_neg (by linarith)]
    ext <;> simp only <;> ring

/-- The function `std::clamp` leaves a value of [0, 1] unchanged. -/
theorem clamp_of_mem {K : Type} [LinearOrderedField K] {t : K} (h0 : 0 ≤ t) (h1 : t ≤ 1) :
    clamp t 0 1 = t := by
  unfold clamp
  rw [if_neg (not_lt.mpr h0), if_neg (not_lt.mpr h1)]

/-- A component bounded by the dominant magnitude projects into [0, 1]. -/
theorem half_range {K : Type} [LinearOrderedField K] {p m : K} (hm : 0 < m) (hp : |p| ≤ m) :
    0 ≤ p * (1 / 2 / m) + 1 / 2 ∧ p * (1 / 2 / m) + 1 / 2 ≤ 1 := by
  have h := abs_le.mp hp
  have e : p * (1 / 2 / m) + 1 / 2 = (p + m) / (2 * m) := by field_simp; ring
  rw [e]
  constructor
  · apply div_nonneg <;> linarith
  · rw [div_le_one (by linarith)]; linarith

/-- The six branches of `sampleCube` (mirroring on), each with the facts that
select it. -/
theorem sampleCube_cases {K : Type} [LinearOrderedField K] (v : V3 K) (hv : v ≠ ⟨0, 0, 0⟩) :
    (v.z < 0 ∧ |v.x| ≤ |v.z| ∧ |v.y| ≤ |v.z| ∧ dominantAbs v = |v.z| ∧
      sampleCube v = (⟨-v.x * (1 / 2 / |v.z|) + 1 / 2, v.y * (1 / 2 / |v.z|) + 1 / 2⟩, 5))
    ∨ (0 < v.z ∧ |v.x| ≤ |v.z| ∧ |v.y| ≤ |v.z| ∧ dominantAbs v = |v.z| ∧
      sampleCube v = (⟨- -v.x * (1 / 2 / |v.z|) + 1 / 2, v.y * (1 / 2 / |v.z|) + 1 / 2⟩, 4))
    ∨ (v.y < 0 ∧ |v.x| ≤ |v.y| ∧ |v.z| ≤ |v.y| ∧ dominantAbs v = |v.y| ∧
      sampleCube v = (⟨v.x * (1 / 2 / |v.y|) + 1 / 2, - -v.z * (1 / 2 / |v.y|) + 1 / 2⟩, 3))
    ∨ (0 < v.y ∧ |v.x| ≤ |v.y| ∧ |v.z| ≤ |v.y| ∧ dominantAbs v = |v.y| ∧
      sampleCube v = (⟨v.x * (1 / 2 / |v.y|) + 1 / 2, -v.z * (1 / 2 / |v.y|) + 1 / 2⟩, 2))
    ∨ (v.x < 0 ∧ |v.y| ≤ |v.x| ∧ |v.z| ≤ |v.x| ∧ dominantAbs v = |v.x| ∧
      sampleCube v = (⟨- -v.z * (1 / 2 / |v.x|) + 1 / 2, v.y * (1 / 2 / |v.x|) + 1 / 2⟩, 1))
    ∨ (0 < v.x ∧ |v.y| ≤ |v.x| ∧ |v.z| ≤ |v.x| ∧ dominantAbs v = |v.x| ∧
      sampleCube v = (⟨-v.z * (1 / 2 / |v.x|) + 1 / 2, v.y * (1 / 2 / |v.x|) + 1 / 2⟩, 0)) := by
  have hL := l1norm_pos hv
  by_cases hZ : |v.z| ≥ |v.x| ∧ |v.z| ≥ |v.y|
  · have hzne : v.z ≠ 0 := by
      intro h0
      rw [h0, abs_zero] at hZ
      have hx : |v.x| = 0 := le_antisymm hZ.1 (abs_nonneg _)
      have hy : |v.y| = 0 := le_antisymm hZ.2 (abs_nonneg _)
      rw [hx, hy, h0, abs_zero] at hL
      simp at hL
    have hd : dominantAbs v = |v.z| := by simp only [dominantAbs, hZ, and_self, if_true]
    by_cases hz : v.z < 0
    · left
      refine ⟨hz, hZ.1, hZ.2, hd, ?_⟩
      simp only [sampleCube, sampleCubeCfg, MIRROR_FACES, hZ, and_self, hz, if_true]
    · right; left
      refine ⟨lt_of_le_of_ne (not_lt.mp hz) (Ne.symm hzne), hZ.1, hZ.2, hd, ?_⟩
      simp only [sampleCube, sampleCubeCfg, MIRROR_FACES, hZ, and_self, hz, if_true, if_false]
  · right; right
    by_cases hY : |v.y| ≥ |v.x|
    · have hzy : |v.z| ≤ |v.y| := by
        by_contra hc
        exact hZ ⟨le_trans hY (le_of_lt (not_le.mp hc)), le_of_lt (not_le.mp hc)⟩
      have hyne : v.y ≠ 0 := by
        intro h0
        rw [h0, abs_zero] at hY hzy
        exact hZ ⟨le_trans hY (abs_nonneg _), le_trans (by rw [h0, abs_zero]) (abs_nonneg _)⟩
      have hd : dominantAbs v = |v.y| := by simp only [dominantAbs, hZ, hY, if_true, if_false]
      by_cases hy : v.y < 0
      · left
        refine ⟨hy, hY, hzy, hd, ?_⟩
        simp only [sampleCube, sampleCubeCfg, MIRROR_FACES, hZ, hY, hy, if_true, if_false]
      · right; left
        refine ⟨lt_of_le_of_ne (not_lt.mp hy) (Ne.symm hyne), hY, hzy, hd, ?_⟩
        simp only [sampleCube, sampleCubeCfg, MIRROR_FACES, hZ, hY, hy, if_true, if_false]
    · right; right
      have hyx : |v.y| ≤ |v.x| := le_of_lt (not_le.mp hY)
      have hzx : |v.z| ≤ |v.x| := by
        by_contra hc
        have hc' := le_of_lt (not_le.mp hc)
        rcases le_total |v.y| |v.z| with h | h
        · exact hZ ⟨hc', h⟩
        · exact hc (le_trans h hyx)
      have hxne : v.x ≠ 0 := by
        intro h0
        rw [h0, abs_zero] at hY
        exact hY (abs_nonneg _)
      have hd : dominantAbs v = |v.x| := by simp only [dominantAbs, hZ, hY, if_false]
      by_cases hx : v.x < 0
      · left
        refine ⟨hx, hyx, hzx, hd, ?_⟩
        simp only [sampleCube, sampleCubeCfg, MIRROR_FACES, hZ, hY, hx, if_true, if_false]
      · right
        refine ⟨lt_of_le_of_ne (not_lt.mp hx) (Ne.symm hxne), hyx, hzx, hd, ?_⟩
        simp only [sampleCube, sampleCubeCfg, MIRROR_FACES, hZ, hY, hx, if_true, if_false]

/-- Before normalisation, `cubeDecode` of the packed `cubeEncode` of a non-zero
vector is the vector divided by its dominant magnitude, provided neither uv
component is 1. -/
theorem cubeDecodeRaw_cubeEncode {K : Type} [LinearOrderedField K] [FloorRing K] (v : V3 K)
    (hv : v ≠ ⟨0, 0, 0⟩) (ha : (cubeEncode v).1.x < 1) (hb : (cubeEncode v).1.y < 1) :
    cubeDecodeRawCfg true
        ⟨(((cubeEncode v).2 : K) + (cubeEncode v).1.x) / 6, (cubeEncode v).1.y⟩
      = ⟨v.x / dominantAbs v, v.y / dominantAbs v, v.z / dominantAbs v⟩ := by
  rcases sampleCube_cases v hv with ⟨hs, h1, h2, hd, he⟩ | ⟨hs, h1, h2, hd, he⟩ |
    ⟨hs, h1, h2, hd, he⟩ | ⟨hs, h1, h2, hd, he⟩ | ⟨hs, h1, h2, hd, he⟩ | ⟨hs, h1, h2, hd, he⟩
  · have hm : 0 < |v.z| := abs_pos.mpr hs.ne
    have hA := half_range hm (by rw [abs_neg]; exact h1 : |-v.x| ≤ |v.z|)
    have hB := half_range hm h2
    have hce : cubeEncode v
        = (⟨-v.x * (1 / 2 / |v.z|) + 1 / 2, v.y * (1 / 2 / |v.z|) + 1 / 2⟩, 5) := by
      simp only [cubeEncode, he, clamp_of_mem hA.1 hA.2, clamp_of_mem hB.1 hB.2]
    rw [hce] at ha hb ⊢
    simp only [Int.cast_ofNat] at ha hb ⊢
    rw [(cubeDecodeRaw_slot _ _ hA.1 ha hB.1 hb).2.2.2.2.2, hd]
    have hne : v.z ≠ 0 := hs.ne
    have hmne := hm.ne'
    ext <;> simp only <;> first
      | (rw [abs_of_neg hs, div_neg, div_self hne])
      | (field_simp; ring)
  · have hm : 0 < |v.z| := abs_pos.mpr hs.ne'
    have hA := half_range hm (by rw [neg_neg]; exact h1 : |- -v.x| ≤ |v.z|)
    have hB := half_range hm h2
    have hce : cubeEncode v
        = (⟨- -v.x * (1 / 2 / |v.z|) + 1 / 2, v.y * (1 / 2 / |v.z|) + 1 / 2⟩, 4) := by
      simp only [cubeEncode, he, clamp_of_mem hA.1 hA.2, clamp_of_mem hB.1 hB.2]
    rw [hce] at ha hb ⊢
    simp only [Int.cast_ofNat] at ha hb ⊢
    rw [(cubeDecodeRaw_slot _ _ hA.1 ha hB.1 hb).2.2.2.2.1, hd]
    have hne : v.z ≠ 0 := hs.ne'
    have hmne := hm.ne'
    ext <;> simp only <;> first
      | (rw [abs_of_pos hs, div_self hne])
      | (field_simp; ring)
  · have hm : 0 < |v.y| := abs_pos.mpr hs.ne
    have hA := half_range hm h1
    have hB := half_range hm (by rw [neg_neg]; exact h2 : |- -v.z| ≤ |v.y|)
    have hce : cubeEncode v
        = (⟨v.x * (1 / 2 / |v.y|) + 1 / 2, - -v.z * (1 / 2 / |v.y|) + 1 / 2⟩, 3) := by
      simp only [cubeEncode, he, clamp_of_mem hA.1 hA.2, clamp_of_mem hB.1 hB.2]
    rw [hce] at ha hb ⊢
    simp only [Int.cast_ofNat] at ha hb ⊢
    rw [(cubeDecodeRaw_slot _ _ hA.1 ha hB.1 hb).2.2.2.1, hd]
    have hne : v.y ≠ 0 := hs.ne
    have hmne := hm.ne'
    ext <;> simp only <;> first
      | (rw [abs_of_neg hs, div_neg, div_self hne])
      | (field_simp; ring)
  · have hm : 0 < |v.y| := abs_pos.mpr hs.ne'
    have hA := half_range hm h1
    have hB := half_range hm (by rw [abs_neg]; exact h2 : |-v.z| ≤ |v.y|)
    have hce : cubeEncode v
        = (⟨v.x * (1 / 2 / |v.y|) + 1 / 2, -v.z * (1 / 2 / |v.y|) + 1 / 2⟩, 2) := by
      simp only [cubeEncode, he, clamp_of_mem hA.1 hA.2, clamp_of_mem hB.1 hB.2]
    rw [hce] at ha hb ⊢
    simp only [Int.cast_ofNat] at ha hb ⊢
    rw [(cubeDecodeRaw_slot _ _ hA.1 ha hB.1 hb).2.2.1, hd]
    have hne : v.y ≠ 0 := hs.ne'
    have hmne := hm.ne'
    ext <;> simp only <;> first
      | (rw [abs_of_pos hs, div_self hne])
      | (field_simp; ring)
  · have hm : 0 < |v.x| := abs_pos.mpr hs.ne
    have hA := half_range hm (by rw [neg_neg]; exact h2 : |- -v.z| ≤ |v.x|)
    have hB := half_range hm h1
    have hce : cubeEncode v
        = (⟨- -v.z * (1 / 2 / |v.x|) + 1 / 2, v.y * (1 / 2 / |v.x|) + 1 / 2⟩, 1) := by
      simp only [cubeEncode, he, clamp_of_mem hA.1 hA.2, clamp_of_mem hB.1 hB.2]
    rw [hce] at ha hb ⊢
    simp only [Int.cast_one] at ha hb ⊢
    rw [(cubeDecodeRaw_slot _ _ hA.1 ha hB.1 hb).2.1, hd]
    have hne : v.x ≠ 0 := hs.ne
    have hmne := hm.ne'
    ext <;> simp only <;> first
      | (rw [abs_of_neg hs, div_neg, div_self hne])
      | (field_simp; ring)
  · have hm : 0 < |v.x| := abs_pos.mpr hs.ne'
    have hA := half_range hm (by rw [abs_neg]; exact h2 : |-v.z| ≤ |v.x|)
    have hB := half_range hm h1
    have hce : cubeEncode v
        = (⟨-v.z * (1 / 2 / |v.x|) + 1 / 2, v.y * (1 / 2 / |v.x|) + 1 / 2⟩, 0) := by
      simp only [cubeEncode, he, clamp_of_mem hA.1 hA.2, clamp_of_mem hB.1 hB.2]
    rw [hce] at ha hb ⊢
    simp only [Int.cast_zero] at ha hb ⊢
    rw [(cubeDecodeRaw_slot _ _ hA.1 ha hB.1 hb).1, hd]
    have hne : v.x ≠ 0 := hs.ne'
    have hmne := hm.ne'
    ext <;> simp only <;> first
      | (rw [abs_of_pos hs, div_self hne])
      | (field_simp; ring)

/-- C2. Cube round trip in exact real arithmetic: for a unit vector `v` whose
`cubeEncode` gives face `f` and uv = (a, b) with a < 1 and b < 1, `cubeDecode`
of the packed coordinate ((f + a) / 6, b) is `v`. -/
theorem cubeDecode_cubeEncode_roundtrip (v : V3 ℝ) (hv : v.length Real.sqrt = 1)
    (ha : (cubeEncode v).1.x < 1) (hb : (cubeEncode v).1.y < 1) :
    cubeDecode Real.sqrt
        ⟨(((cubeEncode v).2 : ℝ) + (cubeEncode v).1.x) / 6, (cubeEncode v).1.y⟩ = v := by
  have hne : v ≠ ⟨0, 0, 0⟩ := by
    intro h0
    rw [h0] at hv
    simp [V3.length, V3.length2] at hv
  unfold V3.length at hv
  unfold cubeDecode cubeDecodeCfg MIRROR_FACES
  rw [cubeDecodeRaw_cubeEncode v hne ha hb, normalized_div_real hne (dominantAbs_pos hne), hv]
  ext <;> simp

/-- Witness for C2 at the unit vector (3/5, 0, -4/5) on face 5. -/
theorem cubeDecode_cubeEncode_roundtrip_witness :
    cubeDecode Real.sqrt
        ⟨(((cubeEncode (⟨3 / 5, 0, -4 / 5⟩ : V3 ℝ)).2 : ℝ)
            + (cubeEncode (⟨3 / 5, 0, -4 / 5⟩ : V3 ℝ)).1.x) / 6,
          (cubeEncode (⟨3 / 5, 0, -4 / 5⟩ : V3 ℝ)).1.y⟩
      = ⟨3 / 5, 0, -4 / 5⟩ :=
  cubeDecode_cubeEncode_roundtrip ⟨3 / 5, 0, -4 / 5⟩
    (by norm_num [V3.length, V3.length2])
    (by norm_num [cubeEncode, sampleCube, sampleCubeCfg, MIRROR_FACES, clamp, abs_of_pos])
    (by norm_num [cubeEncode, sampleCube, sampleCubeCfg, MIRROR_FACES, clamp, abs_of_pos])

/-! ### Scale invariance of the cube encoding -/

/-- The function `sampleCube` does not change when its argument is divided by
a positive scalar. -/
theorem sampleCubeCfg_div_pos {K : Type} [LinearOrderedField K] (mirror : Bool) (v : V3 K)
    {c : K} (hc : 0 < c) :
    sampleCubeCfg mirror ⟨v.x / c, v.y / c, v.z / c⟩ = sampleCubeCfg mirror v := by
  have hc0 : c ≠ 0 := hc.ne'
  have hx : |v.x / c| = |v.x| / c := by rw [abs_div, abs_of_pos hc]
  have hy : |v.y / c| = |v.y| / c := by rw [abs_div, abs_of_pos hc]
  have hz : |v.z / c| = |v.z| / c := by rw [abs_div, abs_of_pos hc]
  have cmp : ∀ p q : K, (p / c ≥ q / c) ↔ (p ≥ q) := fun p q => div_le_div_iff_of_pos_right hc
  have ng : ∀ p : K, (p / c < 0) ↔ (p < 0) := fun p => by rw [div_lt_iff₀ hc, zero_mul]
  have key : ∀ p q : K, (p / c) * (1 / 2 / (q / c)) + 1 / 2 = p * (1 / 2 / q) + 1 / 2 := by
    intro p q
    by_cases hq : q = 0
    · simp [hq]
    · field_simp
  have keyn : ∀ p q : K, -(p / c) * (1 / 2 / (q / c)) + 1 / 2 = -p * (1 / 2 / q) + 1 / 2 := by
    intro p q
    rw [← neg_div]
    exact key (-p) q
  simp only [sampleCubeCfg, hx, hy, hz, cmp, ng]
  split_ifs <;> simp only [key, keyn, neg_neg]

/-- The vector `octDecode` builds is never the zero vector. -/
theorem octDecodeRaw_ne_zero {K : Type} [LinearOrderedField K] (o : V2 K) :
    octDecodeRaw o ≠ ⟨0, 0, 0⟩ := by
  unfold octDecodeRaw
  simp only
  split_ifs with h
  · intro h0
    injection h0 with _ _ hz
    rw [hz] at h
    exact lt_irrefl _ h
  · intro h0
    injection h0 with hx hy hz
    rw [hx, hy] at hz
    simp at hz

/-- Over the reals the cube encoding of a decoded octahedral coordinate can
be computed from the un-normalised vector. -/
theorem cubeEncode_octDecode_real (o : V2 ℝ) :
    cubeEncode (octDecode Real.sqrt o) = cubeEncode (octDecodeRaw o) := by
  have hne := octDecodeRaw_ne_zero o
  have hl := Real.sqrt_pos.mpr (length2_pos3 hne)
  unfold octDecode
  rw [normalize_real hne]
  unfold cubeEncode sampleCube
  rw [sampleCubeCfg_div_pos MIRROR_FACES (octDecodeRaw o) hl]

/-- Both uv components of `cubeEncode` lie in [0, 1]. -/
theorem cubeEncode_uv_mem {K : Type} [LinearOrderedField K] (v : V3 K) :
    (0 ≤ (cubeEncode v).1.x ∧ (cubeEncode v).1.x ≤ 1)
    ∧ (0 ≤ (cubeEncode v).1.y ∧ (cubeEncode v).1.y ≤ 1) := by
  have hcl : ∀ t : K, 0 ≤ clamp t 0 1 ∧ clamp t 0 1 ≤ 1 := by
    intro t
    unfold clamp
    split_ifs with h1 h2
    · exact ⟨le_rfl, zero_le_one⟩
    · exact ⟨zero_le_one, le_rfl⟩
    · exact ⟨not_lt.mp h1, not_lt.mp h2⟩
  exact ⟨hcl _, hcl _⟩

/-- The face index `cubeEncode` writes lies in 0..5. -/
theorem cubeEncode_face_mem {K : Type} [LinearOrderedField K] (v : V3 K) :
    0 ≤ (cubeEncode v).2 ∧ (cubeEncode v).2 ≤ 5 := by
  rw [cubeEncode_face, sampleCube, sampleCubeCfg_face]
  split_ifs <;> omega

/-- The cast `int(t * height)` clamped by `height - 1` stays in
[0, height - 1] for t in [0, 1]. -/
theorem min_truncInt_mem {K : Type} [LinearOrderedField K] [FloorRing K] {height : Int}
    (hh : 1 ≤ height) {t : K} (h0 : 0 ≤ t) :
    0 ≤ min (height - 1) (truncInt (t * (height : K)))
      ∧ min (height - 1) (truncInt (t * (height : K))) ≤ height - 1 := by
  have hhK : (0 : K) ≤ (height : K) := by exact_mod_cast (by omega : (0 : Int) ≤ height)
  have hp : 0 ≤ t * (height : K) := mul_nonneg h0 hhK
  have htr : 0 ≤ truncInt (t * (height : K)) := by
    unfold truncInt
    rw [if_pos hp]
    exact Int.floor_nonneg.mpr hp
  exact ⟨le_min (by omega) htr, min_le_left _ _⟩

/-- The nearest fetch for a uv of [0, 1]^2 on face `face` reads a row of
[0, height - 1] and a pixel of that face. -/
theorem nearestPixel_mem {K : Type} [LinearOrderedField K] [FloorRing K] {height : Int}
    (hh : 1 ≤ height) (uv : V2 K) (face : Int) (hx : 0 ≤ uv.x) (hy : uv.y ≤ 1) :
    (0 ≤ (nearestPixel height uv face).1 ∧ (nearestPixel height uv face).1 ≤ height - 1)
    ∧ (height * face ≤ (nearestPixel height uv face).2
      ∧ (nearestPixel height uv face).2 ≤ height * face + (height - 1)) := by
  have h1 := min_truncInt_mem hh hx
  have h2 := min_truncInt_mem hh (sub_nonneg.mpr hy)
  unfold nearestPixel
  simp only
  refine ⟨h2, ?_, ?_⟩ <;> omega

/-! ### Nearest-mode resampling of constant-colour faces -/

/-- When every pixel of face `f` holds the colour `c f`, the nearest branch
returns the colour of the face `cubeEncode` selects. -/
theorem resampleNearest_face_colour {K : Type} [LinearOrderedField K] [FloorRing K]
    (sqrt : K → K) (inputImage : Image K) {height : Int} (hh : 1 ≤ height) (c : Int → V3 K)
    (himg : ∀ f row col : Int, 0 ≤ f → f ≤ 5 → 0 ≤ row → row ≤ height - 1 → 0 ≤ col →
      col ≤ height - 1 → fetchRGB inputImage row (height * f + col) = c f)
    (oc : V2 K) :
    resampleNearest sqrt inputImage height oc = c (cubeEncode (octDecode sqrt oc)).2 := by
  have huv := cubeEncode_uv_mem (octDecode sqrt oc)
  have hf := cubeEncode_face_mem (octDecode sqrt oc)
  have hp := nearestPixel_mem hh (cubeEncode (octDecode sqrt oc)).1
    (cubeEncode (octDecode sqrt oc)).2 huv.1.1 huv.2.2
  unfold resampleNearest
  simp only
  have h := himg (cubeEncode (octDecode sqrt oc)).2
    (nearestPixel height (cubeEncode (octDecode sqrt oc)).1 (cubeEncode (octDecode sqrt oc)).2).1
    ((nearestPixel height (cubeEncode (octDecode sqrt oc)).1 (cubeEncode (octDecode sqrt oc)).2).2
      - height * (cubeEncode (octDecode sqrt oc)).2)
    hf.1 hf.2 hp.1.1 hp.1.2 (by linarith [hp.2.1]) (by linarith [hp.2.2])
  rw [add_sub_cancel] at h
  exact h

/-- The face `cubeEncode (octDecode ·)` selects over the reals, from the
un-normalised decoded vector. -/
theorem face_of_octDecode_real (o : V2 ℝ) :
    (cubeEncode (octDecode Real.sqrt o)).2
      = if |(octDecodeRaw o).z| ≥ |(octDecodeRaw o).x| ∧ |(octDecodeRaw o).z| ≥ |(octDecodeRaw o).y|
          then (if (octDecodeRaw o).z < 0 then 5 else 4)
        else if |(octDecodeRaw o).y| ≥ |(octDecodeRaw o).x|
          then (if (octDecodeRaw o).y < 0 then 3 else 2)
        else (if (octDecodeRaw o).x < 0 then 1 else 0) := by
  rw [cubeEncode_octDecode_real, cubeEncode_face, sampleCube, sampleCubeCfg_face]

/-- C6. End-to-end Nearest scenario for N = 4: when every pixel of face `f`
holds the colour `c f`, the Nearest-mode output rows are, top to bottom,
[c5,c2,c2,c5], [c1,c4,c4,c0], [c1,c4,c4,c0], [c5,c3,c3,c5], and every cell
holds the colour of the face `cubeEncode (octDecode (cell centre))` returns. -/
theorem nearest_end_to_end (filter : Filter ℝ) (inputImage : Image ℝ) (c : Int → V3 ℝ)
    (himg : ∀ f row col : Int, 0 ≤ f → f ≤ 5 → 0 ≤ row → row ≤ 4 - 1 → 0 ≤ col →
      col ≤ 4 - 1 → fetchRGB inputImage row (4 * f + col) = c f) :
    resampleImage Real.sqrt ResampleType.NEAREST filter inputImage 4
        = [[c 5, c 2, c 2, c 5], [c 1, c 4, c 4, c 0], [c 1, c 4, c 4, c 0],
            [c 5, c 3, c 3, c 5]]
    ∧ ∀ x y : Int, resamplePixel Real.sqrt ResampleType.NEAREST filter inputImage 4 x y
        = c (cubeEncode (octDecode Real.sqrt (octMapCoord 4 x y))).2 := by
  have hcell : ∀ x y : Int,
      resamplePixel Real.sqrt ResampleType.NEAREST filter inputImage 4 x y
        = c (cubeEncode (octDecode Real.sqrt (octMapCoord 4 x y))).2 := by
    intro x y
    unfold resamplePixel
    exact resampleNearest_face_colour Real.sqrt inputImage (by norm_num) c himg _
  refine ⟨?_, hcell⟩
  have hr : List.range 4 = [0, 1, 2, 3] := by decide
  unfold resampleImage
  simp only [hr, List.map, Nat.cast_ofNat, Nat.cast_zero, Nat.cast_one, hcell,
    face_of_octDecode_real]
  norm_num [octMapCoord, octDecodeRaw, signNotZero, abs_div, abs_neg]

/-- Witness for C6: the source image whose three channels hold the face
index, so that face `f` has the colour (f, f, f). -/
theorem nearest_end_to_end_witness :
    resampleImage Real.sqrt ResampleType.NEAREST (MitchellFilter.default.toFilter Real.sqrt)
        (fun _ col => ((col / 12 : Int) : ℝ)) 4
      = [[⟨((5 : Int) : ℝ), ((5 : Int) : ℝ), ((5 : Int) : ℝ)⟩,
          ⟨((2 : Int) : ℝ), ((2 : Int) : ℝ), ((2 : Int) : ℝ)⟩,
          ⟨((2 : Int) : ℝ), ((2 : Int) : ℝ), ((2 : Int) : ℝ)⟩,
          ⟨((5 : Int) : ℝ), ((5 : Int) : ℝ), ((5 : Int) : ℝ)⟩],
         [⟨((1 : Int) : ℝ), ((1 : Int) : ℝ), ((1 : Int) : ℝ)⟩,
          ⟨((4 : Int) : ℝ), ((4 : Int) : ℝ), ((4 : Int) : ℝ)⟩,
          ⟨((4 : Int) : ℝ), ((4 : Int) : ℝ), ((4 : Int) : ℝ)⟩,
          ⟨((0 : Int) : ℝ), ((0 : Int) : ℝ), ((0 : Int) : ℝ)⟩],
         [⟨((1 : Int) : ℝ), ((1 : Int) : ℝ), ((1 : Int) : ℝ)⟩,
          ⟨((4 : Int) : ℝ), ((4 : Int) : ℝ), ((4 : Int) : ℝ)⟩,
          ⟨((4 : Int) : ℝ), ((4 : Int) : ℝ), ((4 : Int) : ℝ)⟩,
          ⟨((0 : Int) : ℝ), ((0 : Int) : ℝ), ((0 : Int) : ℝ)⟩],
         [⟨((5 : Int) : ℝ), ((5 : Int) : ℝ), ((5 : Int) : ℝ)⟩,
          ⟨((3 : Int) : ℝ), ((3 : Int) : ℝ), ((3 : Int) : ℝ)⟩,
          ⟨((3 : Int) : ℝ), ((3 : Int) : ℝ), ((3 : Int) : ℝ)⟩,
          ⟨((5 : Int) : ℝ), ((5 : Int) : ℝ), ((5 : Int) : ℝ)⟩]] :=
  (nearest_end_to_end (MitchellFilter.default.toFilter Real.sqrt)
    (fun _ col => ((col / 12 : Int) : ℝ)) (fun f => ⟨(f : ℝ), (f : ℝ), (f : ℝ)⟩)
    (by
      intro f row col _ _ _ _ hc0 hc3
      have e0 : ((4 * f + col) * 3 + 0) / 12 = f := by omega
      have e1 : ((4 * f + col) * 3 + 1) / 12 = f := by omega
      have e2 : ((4 * f + col) * 3 + 2) / 12 = f := by omega
      simp only [fetchRGB, e0, e1, e2])).1

/-! ### Windowed resampling of a constant image -/

/-- The two nested loops visit (2 * 3 + 1) * (2 * 3 + 1) = 49 taps. -/
theorem windowTaps_length : windowTaps.length = 49 := by decide

/-- Every windowed tap reads a row of [0, height - 1] and a pixel of
[0, 6 * height - 1]. -/
theorem tapPixel_mem {K : Type} [LinearOrderedField K] [FloorRing K] (sqrt : K → K)
    {height : Int} (hh : 1 ≤ height) (oc ofst : V2 K) :
    (0 ≤ (tapPixel sqrt height oc ofst).1 ∧ (tapPixel sqrt height oc ofst).1 ≤ height - 1)
    ∧ (0 ≤ (tapPixel sqrt height oc ofst).2
      ∧ (tapPixel sqrt height oc ofst).2 ≤ 6 * height - 1) := by
  have huv := cubeEncode_uv_mem (octDecode sqrt (tapCoord height oc ofst))
  have hf := cubeEncode_face_mem (octDecode sqrt (tapCoord height oc ofst))
  have hp := nearestPixel_mem hh (cubeEncode (octDecode sqrt (tapCoord height oc ofst))).1
    (cubeEncode (octDecode sqrt (tapCoord height oc ofst))).2 huv.1.1 huv.2.2
  unfold tapPixel
  simp only
  refine ⟨hp.1, ?_, ?_⟩
  · nlinarith [hp.2.1, hf.1]
  · nlinarith [hp.2.2, hf.2]

/-- Loop invariant of the windowed accumulation on a constant image: the
colour accumulator is the weight accumulator times the colour. -/
theorem windowed_foldl_const {K : Type} [LinearOrderedField K] [FloorRing K] (sqrt : K → K)
    (filter : Filter K) (inputImage : Image K) {height : Int} (hh : 1 ≤ height) (C : V3 K)
    (himg : ∀ row pix : Int, 0 ≤ row → row ≤ height - 1 → 0 ≤ pix → pix ≤ 6 * height - 1 →
      fetchRGB inputImage row pix = C)
    (oc : V2 K) (taps : List (Int × Int)) (w : K) :
    taps.foldl (windowedStep sqrt filter inputImage height oc) (⟨C.x * w, C.y * w, C.z * w⟩, w)
      = (⟨C.x * (w + (taps.map fun t => filter.Eval (pixelOfst filter.GetRadius t)).sum),
          C.y * (w + (taps.map fun t => filter.Eval (pixelOfst filter.GetRadius t)).sum),
          C.z * (w + (taps.map fun t => filter.Eval (pixelOfst filter.GetRadius t)).sum)⟩,
         w + (taps.map fun t => filter.Eval (pixelOfst filter.GetRadius t)).sum) := by
  induction taps generalizing w with
  | nil => simp
  | cons t rest ih =>
    have hp := tapPixel_mem sqrt hh oc (pixelOfst filter.GetRadius t)
    have hstep : windowedStep sqrt filter inputImage height oc (⟨C.x * w, C.y * w, C.z * w⟩, w) t
        = (⟨C.x * (w + filter.Eval (pixelOfst filter.GetRadius t)),
            C.y * (w + filter.Eval (pixelOfst filter.GetRadius t)),
            C.z * (w + filter.Eval (pixelOfst filter.GetRadius t))⟩,
           w + filter.Eval (pixelOfst filter.GetRadius t)) := by
      unfold windowedStep
      simp only [himg _ _ hp.1.1 hp.1.2 hp.2.1 hp.2.2]
      ext <;> simp only <;> ring
    rw [List.foldl_cons, hstep, ih]
    simp only [List.map_cons, List.sum_cons, add_assoc]

/-- C7. Weight normalisation invariance: for every N >= 1, every output cell
and every kernel whose 49 tap weights have a non-zero sum, if every source
pixel of the six faces holds the colour C then the windowed branch (selected
by MITCHELL and by GAUSSIAN) returns exactly C. -/
theorem windowed_constant_colour (filter : Filter ℝ) (inputImage : Image ℝ) (height : Int)
    (hh : 1 ≤ height) (C : V3 ℝ)
    (himg : ∀ row pix : Int, 0 ≤ row → row ≤ height - 1 → 0 ≤ pix → pix ≤ 6 * height - 1 →
      fetchRGB inputImage row pix = C)
    (hw : (windowTaps.map fun t => filter.Eval (pixelOfst filter.GetRadius t)).sum ≠ 0)
    (x y : Int) :
    resamplePixel Real.sqrt ResampleType.MITCHELL filter inputImage height x y = C
    ∧ resamplePixel Real.sqrt ResampleType.GAUSSIAN filter inputImage height x y = C := by
  have key : resampleWindowed Real.sqrt filter inputImage height (octMapCoord height x y) = C := by
    have h := windowed_foldl_const Real.sqrt filter inputImage hh C himg
      (octMapCoord height x y) windowTaps 0
    simp only [mul_zero, zero_add] at h
    unfold resampleWindowed windowedAccum
    rw [h]
    ext <;> simp only <;> field_simp
  exact ⟨key, key⟩

/-- Witness for C7: an asymmetric kernel with weight 1 + x on a 4 x 4 image
whose floats are all 7. -/
theorem windowed_constant_colour_witness :
    resamplePixel Real.sqrt ResampleType.MITCHELL (⟨fun p => 1 + p.x, 2⟩ : Filter ℝ)
        (fun _ _ => 7) 4 0 0 = ⟨7, 7, 7⟩ :=
  (windowed_constant_colour (⟨fun p => 1 + p.x, 2⟩ : Filter ℝ) (fun _ _ => 7) 4 (by norm_num)
    ⟨7, 7, 7⟩ (fun _ _ _ _ _ _ => rfl)
    (by norm_num [windowTaps, tapRange, pixelOfst, supportExtent]) 0 0).1

/-! ### Seam symmetry -/

/-- On the vertical edges x = s, s = 1 or -1, of the square the vector
`octDecode` builds has no y component and depends on y only through |y|. -/
theorem octDecodeRaw_edge_x {K : Type} [LinearOrderedField K] (s y : K)
    (hs : s = 1 ∨ s = -1) : octDecodeRaw (⟨s, y⟩ : V2 K) = ⟨(1 - |y|) * s, 0, -|y|⟩ := by
  have habs : |s| = 1 := by rcases hs with h | h <;> simp [h]
  have hsn : signNotZero s = s := by
    rcases hs with h | h
    · rw [h]; exact signNotZero_of_nonneg zero_le_one
    · rw [h]; exact signNotZero_of_neg (by norm_num)
  unfold octDecodeRaw
  simp only [habs, hsn, sub_self, zero_sub, zero_mul]
  split_ifs with h
  · rfl
  · have h0 : |y| = 0 := le_antisymm (by linarith [not_lt.mp h]) (abs_nonneg y)
    have hy : y = 0 := abs_eq_zero.mp h0
    rw [h0, hy]
    ext <;> simp

/-- On the horizontal edges y = s, s = 1 or -1, of the square the vector
`octDecode` builds has no x component and depends on x only through |x|. -/
theorem octDecodeRaw_edge_y {K : Type} [LinearOrderedField K] (s x : K)
    (hs : s = 1 ∨ s = -1) : octDecodeRaw (⟨x, s⟩ : V2 K) = ⟨0, (1 - |x|) * s, -|x|⟩ := by
  have habs : |s| = 1 := by rcases hs with h | h <;> simp [h]
  have hsn : signNotZero s = s := by
    rcases hs with h | h
    · rw [h]; exact signNotZero_of_nonneg zero_le_one
    · rw [h]; exact signNotZero_of_neg (by norm_num)
  unfold octDecodeRaw
  simp only [habs, hsn, sub_self, zero_mul]
  have e : (1 : K) - |x| - 1 = -|x| := by ring
  rw [e]
  split_ifs with h
  · rfl
  · have h0 : |x| = 0 := le_antisymm (by linarith [not_lt.mp h]) (abs_nonneg x)
    have hx : x = 0 := abs_eq_zero.mp h0
    rw [h0, hx]
    ext <;> simp

/-- Normalising keeps a zero y component zero. -/
theorem normalize_y_zero {K : Type} [LinearOrderedField K] (sqrt : K → K) (a c : K) :
    ((⟨a, 0, c⟩ : V3 K).normalize sqrt).y = 0 := by
  unfold V3.normalize
  simp only
  split_ifs <;> simp

/-- Normalising keeps a zero x component zero. -/
theorem normalize_x_zero {K : Type} [LinearOrderedField K] (sqrt : K → K) (b c : K) :
    ((⟨0, b, c⟩ : V3 K).normalize sqrt).x = 0 := by
  unfold V3.normalize
  simp only
  split_ifs <;> simp

/-- C8. Seam symmetry: for y in [-1, 1] and s = 1 or -1 the overlap-reflection
rule with overlap 0 sends the boundary coordinate (s, y) to (s, -y), and the
two decode to directions with the same x and z components and negated y
component; symmetrically (x, s) is sent to (-x, s), and the two decode to
directions with the same y and z components and negated x component. -/
theorem seam_symmetry (s t : ℝ) (hs : s = 1 ∨ s = -1) (_ht : -1 ≤ t ∧ t ≤ 1) :
    (wrapX (⟨s, t⟩ : V2 ℝ) = ⟨s, -t⟩
      ∧ (octDecode Real.sqrt ⟨s, -t⟩).x = (octDecode Real.sqrt ⟨s, t⟩).x
      ∧ (octDecode Real.sqrt ⟨s, -t⟩).y = -(octDecode Real.sqrt ⟨s, t⟩).y
      ∧ (octDecode Real.sqrt ⟨s, -t⟩).z = (octDecode Real.sqrt ⟨s, t⟩).z)
    ∧ (wrapY (⟨t, s⟩ : V2 ℝ) = ⟨-t, s⟩
      ∧ (octDecode Real.sqrt ⟨-t, s⟩).x = -(octDecode Real.sqrt ⟨t, s⟩).x
      ∧ (octDecode Real.sqrt ⟨-t, s⟩).y = (octDecode Real.sqrt ⟨t, s⟩).y
      ∧ (octDecode Real.sqrt ⟨-t, s⟩).z = (octDecode Real.sqrt ⟨t, s⟩).z) := by
  have habs : |s| = 1 := by rcases hs with h | h <;> simp [h]
  have hsign : sign s = s := by
    rcases hs with h | h <;> rw [h] <;> norm_num [sign]
  have ex : octDecode Real.sqrt ⟨s, -t⟩ = octDecode Real.sqrt ⟨s, t⟩ := by
    unfold octDecode
    rw [octDecodeRaw_edge_x s (-t) hs, octDecodeRaw_edge_x s t hs, abs_neg]
  have ey : octDecode Real.sqrt ⟨-t, s⟩ = octDecode Real.sqrt ⟨t, s⟩ := by
    unfold octDecode
    rw [octDecodeRaw_edge_y s (-t) hs, octDecodeRaw_edge_y s t hs, abs_neg]
  have zy : (octDecode Real.sqrt ⟨s, t⟩).y = 0 := by
    unfold octDecode
    rw [octDecodeRaw_edge_x s t hs]
    exact normalize_y_zero _ _ _
  have zx : (octDecode Real.sqrt ⟨t, s⟩).x = 0 := by
    unfold octDecode
    rw [octDecodeRaw_edge_y s t hs]
    exact normalize_x_zero _ _ _
  refine ⟨⟨?_, ?_, ?_, ?_⟩, ⟨?_, ?_, ?_, ?_⟩⟩
  · simp only [wrapX, habs, hsign, sub_self, sub_zero]
  · rw [ex]
  · rw [ex, zy, neg_zero]
  · rw [ex]
  · simp only [wrapY, habs, hsign, sub_self, sub_zero]
  · rw [ey, zx, neg_zero]
  · rw [ey]
  · rw [ey]

/-- Witness for C8 at s = -1, t = 1/2. -/
theorem seam_symmetry_witness :
    (octDecode Real.sqrt (⟨-1, -(1 / 2)⟩ : V2 ℝ)).y = -(octDecode Real.sqrt ⟨-1, 1 / 2⟩).y :=
  (seam_symmetry (-1) (1 / 2) (Or.inr rfl) (by norm_num)).1.2.2.1

/-! ### Filter kernels -/

/-- C9. Mitchell continuity at the breakpoint: for arbitrary B and C the
expression of the `d < 1` branch of `MitchellFilter::Eval` at d = 1 equals the
expression of the `1 <= d < 2` branch at d = 1, both being B / 6; and `Eval`
returns that value at every offset of length 1. -/
theorem mitchell_continuous_at_one (b c : ℝ) :
    (⟨b, c⟩ : MitchellFilter ℝ).inner 1 = (⟨b, c⟩ : MitchellFilter ℝ).outer 1
    ∧ (⟨b, c⟩ : MitchellFilter ℝ).inner 1 = b / 6
    ∧ (⟨b, c⟩ : MitchellFilter ℝ).outer 1 = b / 6
    ∧ ∀ position : V2 ℝ, position.length Real.sqrt = 1 →
        (⟨b, c⟩ : MitchellFilter ℝ).Eval Real.sqrt position = b / 6 := by
  have hi : (⟨b, c⟩ : MitchellFilter ℝ).inner 1 = b / 6 := by
    simp only [MitchellFilter.inner]; ring
  have ho : (⟨b, c⟩ : MitchellFilter ℝ).outer 1 = b / 6 := by
    simp only [MitchellFilter.outer]; ring
  refine ⟨by rw [hi, ho], hi, ho, ?_⟩
  intro position hp
  unfold MitchellFilter.Eval
  simp only [hp]
  rw [if_neg (lt_irrefl _), if_pos ⟨le_rfl, by norm_num⟩, ho]

/-- C10. Gaussian boundary: for sigma != 0 and radius >= 0 the filter built
by `GaussianFilter(sigma, radius)` evaluates to exactly 0 at every offset of
length `radius` and at every longer offset, and the untruncated expression
a * exp(b * d^2) + c is exactly 0 at d = radius. -/
theorem gaussian_zero_at_radius (sigma radius : ℝ) (_hs : sigma ≠ 0) (hr : 0 ≤ radius)
    (offset : V2 ℝ) :
    (offset.length Real.sqrt = radius →
      (GaussianFilter.new Real.sqrt Real.exp Real.pi sigma radius).Eval Real.exp offset = 0)
    ∧ (offset.length Real.sqrt > radius →
      (GaussianFilter.new Real.sqrt Real.exp Real.pi sigma radius).Eval Real.exp offset = 0)
    ∧ (GaussianFilter.new Real.sqrt Real.exp Real.pi sigma radius).untruncated Real.exp
        (radius * radius) = 0 := by
  have hd2 : 0 ≤ offset.length2 := by
    unfold V2.length2
    nlinarith [mul_self_nonneg offset.x, mul_self_nonneg offset.y]
  refine ⟨?_, ?_, ?_⟩
  · intro h
    unfold V2.length at h
    have e : offset.length2 = radius * radius := by
      rw [← h]; exact (Real.mul_self_sqrt hd2).symm
    unfold GaussianFilter.Eval
    simp only [GaussianFilter.new]
    rw [if_pos (by rw [e])]
  · intro h
    unfold V2.length at h
    have e : radius * radius ≤ offset.length2 := by
      have h2 := mul_self_le_mul_self hr h.le
      rwa [Real.mul_self_sqrt hd2] at h2
    unfold GaussianFilter.Eval
    simp only [GaussianFilter.new]
    rw [if_pos e]
  · simp only [GaussianFilter.untruncated, GaussianFilter.new]
    ring

/-- Witness for C10: the default parameters sigma = 2/3, radius = 2 at the
offset (2, 0). -/
theorem gaussian_zero_at_radius_witness :
    (GaussianFilter.new Real.sqrt Real.exp Real.pi (2 / 3) 2).Eval Real.exp (⟨2, 0⟩ : V2 ℝ) = 0 :=
  (gaussian_zero_at_radius (2 / 3) 2 (by norm_num) (by norm_num) ⟨2, 0⟩).1
    (by
      have e : V2.length2 (⟨2, 0⟩ : V2 ℝ) = 2 * 2 := by norm_num [V2.length2]
      rw [V2.length, e, Real.sqrt_mul_self (by norm_num)])

/-! ### The windowed denominator for the two default kernels -/

/-- The weight accumulator of the windowed loop is the sum of the tap weights,
whatever the image holds. -/
theorem windowed_foldl_weight {K : Type} [LinearOrderedField K] [FloorRing K] (sqrt : K → K)
    (filter : Filter K) (inputImage : Image K) (height : Int) (oc : V2 K)
    (taps : List (Int × Int)) (acc : V3 K × K) :
    (taps.foldl (windowedStep sqrt filter inputImage height oc) acc).2
      = acc.2 + (taps.map fun t => filter.Eval (pixelOfst filter.GetRadius t)).sum := by
  induction taps generalizing acc with
  | nil => simp
  | cons t rest ih =>
    rw [List.foldl_cons, ih]
    simp only [windowedStep, List.map_cons, List.sum_cons, add_assoc]

/-- The denominator of the windowed branch is the sum of the 49 tap weights. -/
theorem windowedAccum_weight {K : Type} [LinearOrderedField K] [FloorRing K] (sqrt : K → K)
    (filter : Filter K) (inputImage : Image K) (height : Int) (oc : V2 K) :
    (windowedAccum sqrt filter inputImage height oc).2
      = (windowTaps.map fun t => filter.Eval (pixelOfst filter.GetRadius t)).sum := by
  unfold windowedAccum
  rw [windowed_foldl_weight]
  simp

/-- A sum over the 49 taps of non-negative terms is at least its centre term. -/
theorem centre_le_sum_taps (w : Int × Int → ℝ) (hw : ∀ t, 0 ≤ w t) :
    w (0, 0) ≤ (windowTaps.map w).sum := by
  have hle : (windowTaps.map fun t : Int × Int => if t = (0, 0) then w (0, 0) else 0).sum
      ≤ (windowTaps.map w).sum := by
    apply List.sum_le_sum
    intro t _
    split_ifs with h
    · rw [h]
    · exact hw t
  have hsum : (windowTaps.map fun t : Int × Int => if t = (0, 0) then w (0, 0) else 0).sum
      = w (0, 0) := by
    simp only [windowTaps, tapRange, List.flatMap_cons, List.flatMap_nil, List.map_cons,
      List.map_nil, List.append_nil, List.cons_append, List.nil_append, List.sum_cons,
      List.sum_nil, Prod.mk.injEq]
    norm_num
  rw [hsum] at hle
  exact hle

/-- The default Mitchell kernel (B = C = 1/3) is nowhere below -1/20. -/
theorem mitchell_default_lower (position : V2 ℝ) :
    -(1 / 20) ≤ (MitchellFilter.default : MitchellFilter ℝ).Eval Real.sqrt position := by
  have hd : 0 ≤ position.length Real.sqrt := Real.sqrt_nonneg _
  unfold MitchellFilter.Eval
  simp only [MitchellFilter.default, MitchellFilter.inner, MitchellFilter.outer]
  generalize position.length Real.sqrt = d at hd
  split_ifs with h1 h2
  · have hq : 0 ≤ 5 + 5 * d - 7 * (d * d) := by nlinarith [mul_nonneg hd (sub_nonneg.mpr h1.le)]
    have hp : 0 ≤ (1 - d) * (5 + 5 * d - 7 * (d * d)) := mul_nonneg (by linarith) hq
    rw [le_div_iff₀ (by norm_num : (0 : ℝ) < 6)]
    nlinarith [hp]
  · have hp : 0 ≤ (d - 10 / 7) ^ 2 * (16 / 7 - d) :=
      mul_nonneg (sq_nonneg _) (by linarith [h2.2])
    rw [le_div_iff₀ (by norm_num : (0 : ℝ) < 6)]
    nlinarith [hp]
  · norm_num

/-- The default Mitchell kernel at the centre tap. -/
theorem mitchell_default_centre :
    (MitchellFilter.default : MitchellFilter ℝ).Eval Real.sqrt ⟨0, 0⟩ = 8 / 9 := by
  have hl : V2.length Real.sqrt (⟨0, 0⟩ : V2 ℝ) = 0 := by simp [V2.length, V2.length2]
  unfold MitchellFilter.Eval
  simp only [hl, MitchellFilter.default, MitchellFilter.inner]
  norm_num

/-- The default Mitchell kernel at an offset of length 1/2. -/
theorem mitchell_default_half (position : V2 ℝ) (h : position.length2 = 1 / 2 * (1 / 2)) :
    (MitchellFilter.default : MitchellFilter ℝ).Eval Real.sqrt position = 77 / 144 := by
  have hl : V2.length Real.sqrt position = 1 / 2 := by
    rw [V2.length, h, Real.sqrt_mul_self (by norm_num)]
  unfold MitchellFilter.Eval
  simp only [hl, MitchellFilter.default, MitchellFilter.inner]
  norm_num

/-- The 49 tap weights of the default Mitchell kernel sum to at least
149/180. -/
theorem mitchell_default_sum_lower :
    149 / 180 ≤ (windowTaps.map fun t =>
      ((MitchellFilter.default : MitchellFilter ℝ).toFilter Real.sqrt).Eval
        (pixelOfst ((MitchellFilter.default : MitchellFilter ℝ).toFilter Real.sqrt).GetRadius
          t)).sum := by
  have hsum : (windowTaps.map fun t : Int × Int =>
        if t = (0, 0) then (8 / 9 : ℝ)
        else if t = (1, 0) ∨ t = (-1, 0) ∨ t = (0, 1) ∨ t = (0, -1) then 77 / 144
        else -(1 / 20)).sum = 149 / 180 := by
    simp only [windowTaps, tapRange, List.flatMap_cons, List.flatMap_nil, List.map_cons,
      List.map_nil, List.append_nil, List.cons_append, List.nil_append, List.sum_cons,
      List.sum_nil, Prod.mk.injEq]
    norm_num
  rw [← hsum]
  apply List.sum_le_sum
  intro t _
  simp only [MitchellFilter.toFilter, MitchellFilter.GetRadius]
  split_ifs with h0 h1
  · rw [h0]
    have hp : pixelOfst (2 : ℝ) ((0, 0) : Int × Int) = ⟨0, 0⟩ := by
      simp [pixelOfst]
    rw [hp, mitchell_default_centre]
  · apply le_of_eq
    symm
    apply mitchell_default_half
    rcases h1 with h | h | h | h <;> rw [h] <;>
      norm_num [pixelOfst, supportExtent, V2.length2]
  · exact mitchell_default_lower _

/-- The default Gaussian kernel (sigma = 2/3, radius = 2) is positive at every
offset of squared length below 4 and never negative. -/
theorem gaussian_default_sign (position : V2 ℝ) :
    0 ≤ (GaussianFilter.default Real.sqrt Real.exp Real.pi).Eval Real.exp position
    ∧ (position.length2 < 4 →
      0 < (GaussianFilter.default Real.sqrt Real.exp Real.pi).Eval Real.exp position) := by
  have ha : 0 < 1 / (Real.sqrt (2 * Real.pi) * (2 / 3)) := by
    have hs : 0 < Real.sqrt (2 * Real.pi) := Real.sqrt_pos.mpr (by positivity)
    positivity
  have hpos : position.length2 < 4 →
      0 < (GaussianFilter.default Real.sqrt Real.exp Real.pi).Eval Real.exp position := by
    intro hlt
    unfold GaussianFilter.Eval
    simp only [GaussianFilter.default, GaussianFilter.new, GaussianFilter.untruncated]
    rw [if_neg (by norm_num; linarith)]
    have hexp : Real.exp (2 * 2 * (-1 / (2 * (2 / 3) * (2 / 3))))
        < Real.exp (position.length2 * (-1 / (2 * (2 / 3) * (2 / 3)))) := by
      apply Real.exp_lt_exp.mpr
      have hb : (-1 / (2 * (2 / 3) * (2 / 3)) : ℝ) < 0 := by norm_num
      nlinarith
    nlinarith [mul_pos ha (sub_pos.mpr hexp)]
  refine ⟨?_, hpos⟩
  by_cases hlt : position.length2 < 4
  · exact (hpos hlt).le
  · unfold GaussianFilter.Eval
    simp only [GaussianFilter.default, GaussianFilter.new]
    rw [if_pos (by norm_num; linarith [not_lt.mp hlt])]

/-- C11. Non-zero windowed denominator: for the default Mitchell kernel
(B = C = 1/3, radius 2) and the default Gaussian kernel (sigma = 2/3,
radius 2) the centre weight Eval((0,0)) is strictly positive, the sum of the
49 tap weights Eval((i, j) * radius / 4) is non-zero, and so is the weight the
windowed loop divides by, for every image, size and cell. -/
theorem windowed_denominator_nonzero :
    (0 < (MitchellFilter.default : MitchellFilter ℝ).Eval Real.sqrt ⟨0, 0⟩
      ∧ (windowTaps.map fun t =>
          ((MitchellFilter.default : MitchellFilter ℝ).toFilter Real.sqrt).Eval
            (pixelOfst
              ((MitchellFilter.default : MitchellFilter ℝ).toFilter Real.sqrt).GetRadius
              t)).sum ≠ 0
      ∧ ∀ (inputImage : Image ℝ) (height : Int) (oc : V2 ℝ),
          (windowedAccum Real.sqrt
            ((MitchellFilter.default : MitchellFilter ℝ).toFilter Real.sqrt)
            inputImage height oc).2 ≠ 0)
    ∧ (0 < (GaussianFilter.default Real.sqrt Real.exp Real.pi).Eval Real.exp ⟨0, 0⟩
      ∧ (windowTaps.map fun t =>
          ((GaussianFilter.default Real.sqrt Real.exp Real.pi).toFilter Real.exp).Eval
            (pixelOfst
              ((GaussianFilter.default Real.sqrt Real.exp Real.pi).toFilter Real.exp).GetRadius
              t)).sum ≠ 0
      ∧ ∀ (inputImage : Image ℝ) (height : Int) (oc : V2 ℝ),
          (windowedAccum Real.sqrt
            ((GaussianFilter.default Real.sqrt Real.exp Real.pi).toFilter Real.exp)
            inputImage height oc).2 ≠ 0) := by
  have hM := mitchell_default_sum_lower
  have hG0 : 0 < (GaussianFilter.default Real.sqrt Real.exp Real.pi).Eval Real.exp ⟨0, 0⟩ :=
    (gaussian_default_sign ⟨0, 0⟩).2 (by norm_num [V2.length2])
  have hG : 0 < (windowTaps.map fun t =>
      ((GaussianFilter.default Real.sqrt Real.exp Real.pi).toFilter Real.exp).Eval
        (pixelOfst
          ((GaussianFilter.default Real.sqrt Real.exp Real.pi).toFilter Real.exp).GetRadius
          t)).sum := by
    have hc := centre_le_sum_taps (fun t =>
      ((GaussianFilter.default Real.sqrt Real.exp Real.pi).toFilter Real.exp).Eval
        (pixelOfst
          ((GaussianFilter.default Real.sqrt Real.exp Real.pi).toFilter Real.exp).GetRadius
          t)) (fun t => (gaussian_default_sign _).1)
    have hp : pixelOfst
        ((GaussianFilter.default Real.sqrt Real.exp Real.pi).toFilter Real.exp).GetRadius
        ((0, 0) : Int × Int) = ⟨0, 0⟩ := by
      simp [pixelOfst]
    simp only [hp] at hc
    exact lt_of_lt_of_le hG0 hc
  refine ⟨⟨?_, ?_, ?_⟩, ⟨hG0, hG.ne', ?_⟩⟩
  · rw [mitchell_default_centre]; norm_num
  · exact (lt_of_lt_of_le (by norm_num) hM).ne'
  · intro inputImage height oc
    rw [windowedAccum_weight]
    exact (lt_of_lt_of_le (by norm_num) hM).ne'
  · intro inputImage height oc
    rw [windowedAccum_weight]
    exact hG.ne'

/-! ### Ranges of the two encodings -/

/-- For a non-zero vector the unclamped uv of `sampleCube` lies in [0, 1]^2. -/
theorem sampleCube_uv_mem {K : Type} [LinearOrderedField K] (v : V3 K) (hv : v ≠ ⟨0, 0, 0⟩) :
    (0 ≤ (sampleCube v).1.x ∧ (sampleCube v).1.x ≤ 1)
    ∧ (0 ≤ (sampleCube v).1.y ∧ (sampleCube v).1.y ≤ 1) := by
  rcases sampleCube_cases v hv with ⟨hs, h1, h2, _, he⟩ | ⟨hs, h1, h2, _, he⟩ |
    ⟨hs, h1, h2, _, he⟩ | ⟨hs, h1, h2, _, he⟩ | ⟨hs, h1, h2, _, he⟩ | ⟨hs, h1, h2, _, he⟩
  · rw [he]
    exact ⟨half_range (abs_pos.mpr hs.ne) (by rw [abs_neg]; exact h1),
      half_range (abs_pos.mpr hs.ne) h2⟩
  · rw [he]
    exact ⟨half_range (abs_pos.mpr hs.ne') (by rw [neg_neg]; exact h1),
      half_range (abs_pos.mpr hs.ne') h2⟩
  · rw [he]
    exact ⟨half_range (abs_pos.mpr hs.ne) h1,
      half_range (abs_pos.mpr hs.ne) (by rw [neg_neg]; exact h2)⟩
  · rw [he]
    exact ⟨half_range (abs_pos.mpr hs.ne') h1,
      half_range (abs_pos.mpr hs.ne') (by rw [abs_neg]; exact h2)⟩
  · rw [he]
    exact ⟨half_range (abs_pos.mpr hs.ne) (by rw [neg_neg]; exact h2),
      half_range (abs_pos.mpr hs.ne) h1⟩
  · rw [he]
    exact ⟨half_range (abs_pos.mpr hs.ne') (by rw [abs_neg]; exact h2),
      half_range (abs_pos.mpr hs.ne') h1⟩

/-- For a non-zero vector the clamp of `cubeEncode` changes nothing. -/
theorem cubeEncode_eq_sampleCube {K : Type} [LinearOrderedField K] (v : V3 K)
    (hv : v ≠ ⟨0, 0, 0⟩) : cubeEncode v = sampleCube v := by
  have h := sampleCube_uv_mem v hv
  unfold cubeEncode
  simp only [clamp_of_mem h.1.1 h.1.2, clamp_of_mem h.2.1 h.2.2]

/-- C12. The encoding `cubeEncode` lands on the unit square: for every
non-zero `v` both components of `cubeEncode v` lie in [0, 1]; the unclamped
`sampleCube v` already lies in [0, 1]^2, and the clamp changes nothing. -/
theorem cubeEncode_unit_square {K : Type} [LinearOrderedField K] (v : V3 K)
    (hv : v ≠ ⟨0, 0, 0⟩) :
    ((0 ≤ (cubeEncode v).1.x ∧ (cubeEncode v).1.x ≤ 1)
      ∧ (0 ≤ (cubeEncode v).1.y ∧ (cubeEncode v).1.y ≤ 1))
    ∧ ((0 ≤ (sampleCube v).1.x ∧ (sampleCube v).1.x ≤ 1)
      ∧ (0 ≤ (sampleCube v).1.y ∧ (sampleCube v).1.y ≤ 1))
    ∧ cubeEncode v = sampleCube v :=
  ⟨cubeEncode_uv_mem v, sampleCube_uv_mem v hv, cubeEncode_eq_sampleCube v hv⟩

/-- Witness for C12 at (2, -3, 3), a tie between y and z. -/
theorem cubeEncode_unit_square_witness :
    cubeEncode (⟨2, -3, 3⟩ : V3 ℚ) = sampleCube (⟨2, -3, 3⟩ : V3 ℚ) :=
  (cubeEncode_unit_square (⟨2, -3, 3⟩ : V3 ℚ) (by decide)).2.2

/-- Both components of `octEncode` of a non-zero vector have absolute value
at most 1, and the two absolute values are as stated in each branch. -/
theorem octEncode_abs {K : Type} [LinearOrderedField K] (v : V3 K) (hv : v ≠ ⟨0, 0, 0⟩) :
    (0 ≤ v.z → |(octEncode v).x| = |v.x| / (|v.x| + |v.y| + |v.z|)
      ∧ |(octEncode v).y| = |v.y| / (|v.x| + |v.y| + |v.z|))
    ∧ (v.z < 0 → |(octEncode v).x| = 1 - |v.y| / (|v.x| + |v.y| + |v.z|)
      ∧ |(octEncode v).y| = 1 - |v.x| / (|v.x| + |v.y| + |v.z|)) := by
  have hL := l1norm_pos hv
  set L := |v.x| + |v.y| + |v.z| with hLdef
  have eax : |v.x * (1 / L)| = |v.x| / L := by
    rw [abs_mul, abs_of_pos (one_div_pos.mpr hL)]; ring
  have eay : |v.y * (1 / L)| = |v.y| / L := by
    rw [abs_mul, abs_of_pos (one_div_pos.mpr hL)]; ring
  have hx1 : |v.x| / L ≤ 1 := by
    rw [div_le_one hL]; linarith [abs_nonneg v.y, abs_nonneg v.z]
  have hy1 : |v.y| / L ≤ 1 := by
    rw [div_le_one hL]; linarith [abs_nonneg v.x, abs_nonneg v.z]
  constructor
  · intro hz
    unfold octEncode
    simp only [← hLdef, if_neg (not_lt.mpr hz)]
    exact ⟨eax, eay⟩
  · intro hz
    unfold octEncode
    simp only [← hLdef, if_pos hz, signNotZero2]
    rw [eax, eay, abs_mul, abs_signNotZero, mul_one, abs_mul, abs_signNotZero, mul_one,
      abs_of_nonneg (sub_nonneg.mpr hy1), abs_of_nonneg (sub_nonneg.mpr hx1)]
    exact ⟨rfl, rfl⟩

/-- C13. The encoding `octEncode` lands on the signed square: for every
non-zero `v` both components of `octEncode v` lie in [-1, 1]. -/
theorem octEncode_signed_square {K : Type} [LinearOrderedField K] (v : V3 K)
    (hv : v ≠ ⟨0, 0, 0⟩) :
    (-1 ≤ (octEncode v).x ∧ (octEncode v).x ≤ 1)
    ∧ (-1 ≤ (octEncode v).y ∧ (octEncode v).y ≤ 1) := by
  have hL := l1norm_pos hv
  have h := octEncode_abs v hv
  have hx0 : 0 ≤ |v.x| / (|v.x| + |v.y| + |v.z|) := div_nonneg (abs_nonneg _) hL.le
  have hy0 : 0 ≤ |v.y| / (|v.x| + |v.y| + |v.z|) := div_nonneg (abs_nonneg _) hL.le
  have hx1 : |v.x| / (|v.x| + |v.y| + |v.z|) ≤ 1 := by
    rw [div_le_one hL]; linarith [abs_nonneg v.y, abs_nonneg v.z]
  have hy1 : |v.y| / (|v.x| + |v.y| + |v.z|) ≤ 1 := by
    rw [div_le_one hL]; linarith [abs_nonneg v.x, abs_nonneg v.z]
  rcases le_or_lt 0 v.z with hz | hz
  · obtain ⟨ex, ey⟩ := h.1 hz
    exact ⟨abs_le.mp (by rw [ex]; exact hx1), abs_le.mp (by rw [ey]; exact hy1)⟩
  · obtain ⟨ex, ey⟩ := h.2 hz
    exact ⟨abs_le.mp (by rw [ex]; linarith), abs_le.mp (by rw [ey]; linarith)⟩

/-- Witness for C13 at (1, 2, -2), in the folded branch. -/
theorem octEncode_signed_square_witness :
    (-1 ≤ (octEncode (⟨1, 2, -2⟩ : V3 ℚ)).x ∧ (octEncode (⟨1, 2, -2⟩ : V3 ℚ)).x ≤ 1)
    ∧ (-1 ≤ (octEncode (⟨1, 2, -2⟩ : V3 ℚ)).y ∧ (octEncode (⟨1, 2, -2⟩ : V3 ℚ)).y ≤ 1) :=
  octEncode_signed_square (⟨1, 2, -2⟩ : V3 ℚ) (by decide)

/-- C14. The decoding `octDecode` always returns a unit vector: over the
reals, for every input `o` the un-normalised vector it builds is non-zero and
the returned vector has Euclidean length exactly 1. -/
theorem octDecode_unit (o : V2 ℝ) :
    octDecodeRaw o ≠ ⟨0, 0, 0⟩ ∧ (octDecode Real.sqrt o).length Real.sqrt = 1 := by
  have hne := octDecodeRaw_ne_zero o
  have hl := Real.sqrt_pos.mpr (length2_pos3 hne)
  refine ⟨hne, ?_⟩
  unfold octDecode V3.length
  rw [normalize_real hne, length_div_vec (octDecodeRaw o) hl, div_self hl.ne']

/-- C15. Hemisphere layout of the octahedral square: for non-zero `v` with
`r = octEncode v`, `v.z >= 0` gives |r.x| + |r.y| <= 1 and `v.z < 0` gives
|r.x| + |r.y| > 1; and `octEncode` maps (0,0,1) to (0,0), (1,0,0) to (1,0),
(0,1,0) to (0,1) and (0,0,-1) to (1,1), as `signNotZero 0 = 1`. -/
theorem octEncode_hemisphere_layout {K : Type} [LinearOrderedField K] (v : V3 K)
    (hv : v ≠ ⟨0, 0, 0⟩) :
    (0 ≤ v.z → |(octEncode v).x| + |(octEncode v).y| ≤ 1)
    ∧ (v.z < 0 → 1 < |(octEncode v).x| + |(octEncode v).y|)
    ∧ octEncode (⟨0, 0, 1⟩ : V3 K) = ⟨0, 0⟩
    ∧ octEncode (⟨1, 0, 0⟩ : V3 K) = ⟨1, 0⟩
    ∧ octEncode (⟨0, 1, 0⟩ : V3 K) = ⟨0, 1⟩
    ∧ octEncode (⟨0, 0, -1⟩ : V3 K) = ⟨1, 1⟩
    ∧ signNotZero (0 : K) = 1 := by
  have hL := l1norm_pos hv
  have h := octEncode_abs v hv
  have hsum : |v.x| / (|v.x| + |v.y| + |v.z|) + |v.y| / (|v.x| + |v.y| + |v.z|)
      + |v.z| / (|v.x| + |v.y| + |v.z|) = 1 := by
    rw [← add_div, ← add_div]; exact div_self hL.ne'
  refine ⟨?_, ?_, ?_, ?_, ?_, ?_, ?_⟩
  · intro hz
    obtain ⟨ex, ey⟩ := h.1 hz
    rw [ex, ey]
    linarith [div_nonneg (abs_nonneg v.z) hL.le]
  · intro hz
    obtain ⟨ex, ey⟩ := h.2 hz
    rw [ex, ey]
    linarith [div_pos (abs_pos.mpr hz.ne) hL]
  · norm_num [octEncode]
  · norm_num [octEncode]
  · norm_num [octEncode]
  · norm_num [octEncode, signNotZero2, signNotZero]
  · norm_num [signNotZero]

/-- Witness for C15 at (1, 2, -2), which folds into a corner triangle. -/
theorem octEncode_hemisphere_layout_witness :
    1 < |(octEncode (⟨1, 2, -2⟩ : V3 ℚ)).x| + |(octEncode (⟨1, 2, -2⟩ : V3 ℚ)).y| :=
  (octEncode_hemisphere_layout (⟨1, 2, -2⟩ : V3 ℚ) (by decide)).2.1 (by decide)

/-! ### The documented members of the Mitchell family -/

/-- With B = 1, C = 0 the method `MitchellFilter::Eval` is the cubic
B-spline. -/
theorem mitchell_b1_c0_bspline (position : V2 ℝ) :
    (⟨1, 0⟩ : MitchellFilter ℝ).Eval Real.sqrt position
      = cubicBSpline (position.length Real.sqrt) := by
  unfold MitchellFilter.Eval cubicBSpline
  simp only [MitchellFilter.inner, MitchellFilter.outer]
  split_ifs <;> ring

/-- With B = 0, C = 1 the method `MitchellFilter::Eval` returns d^3 - 2d^2 + 1
below 1 and -d^3 + 5d^2 - 8d + 4 on [1, 2). -/
theorem mitchell_b0_c1_eval (position : V2 ℝ) :
    (⟨0, 1⟩ : MitchellFilter ℝ).Eval Real.sqrt position
      = if position.length Real.sqrt < 1 then
          position.length Real.sqrt ^ 3 - 2 * position.length Real.sqrt ^ 2 + 1
        else if position.length Real.sqrt ≥ 1 ∧ position.length Real.sqrt < 2 then
          -position.length Real.sqrt ^ 3 + 5 * position.length Real.sqrt ^ 2
            - 8 * position.length Real.sqrt + 4
        else 0 := by
  unfold MitchellFilter.Eval
  simp only [MitchellFilter.inner, MitchellFilter.outer]
  split_ifs <;> ring

/-- C16. The documented B-spline parameters fail on the code: with B = 0,
C = 1 the method `MitchellFilter::Eval` returns 1 at the offset (0, 0), where
the cubic B-spline is 2/3, so the two differ there. -/
theorem mitchell_b0_c1_differs_from_bspline :
    (⟨0, 1⟩ : MitchellFilter ℝ).Eval Real.sqrt ⟨0, 0⟩ = 1
    ∧ cubicBSpline (V2.length Real.sqrt (⟨0, 0⟩ : V2 ℝ)) = 2 / 3
    ∧ (⟨0, 1⟩ : MitchellFilter ℝ).Eval Real.sqrt ⟨0, 0⟩
        ≠ cubicBSpline (V2.length Real.sqrt (⟨0, 0⟩ : V2 ℝ)) := by
  have hl : V2.length Real.sqrt (⟨0, 0⟩ : V2 ℝ) = 0 := by
    simp [V2.length, V2.length2]
  have h1 : (⟨0, 1⟩ : MitchellFilter ℝ).Eval Real.sqrt ⟨0, 0⟩ = 1 := by
    rw [mitchell_b0_c1_eval, hl]; norm_num
  have h2 : cubicBSpline (V2.length Real.sqrt (⟨0, 0⟩ : V2 ℝ)) = 2 / 3 := by
    rw [hl]; norm_num [cubicBSpline]
  refine ⟨h1, h2, ?_⟩
  rw [h1, h2]; norm_num

/-- C17. Documented Catmull-Rom parameters: with B = 0, C = 0.5 the method
`MitchellFilter::Eval` is the Catmull-Rom spline in d = |offset|, namely
1.5d^3 - 2.5d^2 + 1 for d < 1, -0.5d^3 + 2.5d^2 - 4d + 2 for 1 <= d < 2 and
0 otherwise; it is 1 at d = 0 and 0 at d = 1. -/
theorem mitchell_b0_chalf_catmull_rom (position : V2 ℝ) :
    (⟨0, 1 / 2⟩ : MitchellFilter ℝ).Eval Real.sqrt position
        = catmullRom (position.length Real.sqrt)
    ∧ (position.length Real.sqrt = 0 →
        (⟨0, 1 / 2⟩ : MitchellFilter ℝ).Eval Real.sqrt position = 1)
    ∧ (position.length Real.sqrt = 1 →
        (⟨0, 1 / 2⟩ : MitchellFilter ℝ).Eval Real.sqrt position = 0) := by
  have h : (⟨0, 1 / 2⟩ : MitchellFilter ℝ).Eval Real.sqrt position
      = catmullRom (position.length Real.sqrt) := by
    unfold MitchellFilter.Eval catmullRom
    simp only [MitchellFilter.inner, MitchellFilter.outer]
    split_ifs <;> ring
  refine ⟨h, ?_, ?_⟩
  · intro h0
    rw [h, h0]; norm_num [catmullRom]
  · intro h1
    rw [h, h1]; norm_num [catmullRom]

/-! ### Bounds of the source fetches -/

/-- The `BILINEAR` branch reads the source image at the rows and pixel columns
of `bilinearPixels` and blends the reads by the fractions of `bilinearFrac`. -/
theorem resampleBilinear_eq {K : Type} [LinearOrderedField K] [FloorRing K] (sqrt : K → K)
    (inputImage : Image K) (height : Int) (oc : V2 K) :
    resampleBilinear sqrt inputImage height oc
      = ⟨bilinearChannel inputImage
            (bilinearPixels height (cubeEncode (octDecode sqrt oc)).1
              (cubeEncode (octDecode sqrt oc)).2)
            (bilinearFrac height (cubeEncode (octDecode sqrt oc)).1) 0,
          bilinearChannel inputImage
            (bilinearPixels height (cubeEncode (octDecode sqrt oc)).1
              (cubeEncode (octDecode sqrt oc)).2)
            (bilinearFrac height (cubeEncode (octDecode sqrt oc)).1) 1,
          bilinearChannel inputImage
            (bilinearPixels height (cubeEncode (octDecode sqrt oc)).1
              (cubeEncode (octDecode sqrt oc)).2)
            (bilinearFrac height (cubeEncode (octDecode sqrt oc)).1) 2⟩ := rfl

/-- The `NEAREST` branch reads the source image at the row and pixel column of
`nearestPixel`. -/
theorem resampleNearest_eq {K : Type} [LinearOrderedField K] [FloorRing K] (sqrt : K → K)
    (inputImage : Image K) (height : Int) (oc : V2 K) :
    resampleNearest sqrt inputImage height oc
      = fetchRGB inputImage
          (nearestPixel height (cubeEncode (octDecode sqrt oc)).1
            (cubeEncode (octDecode sqrt oc)).2).1
          (nearestPixel height (cubeEncode (octDecode sqrt oc)).1
            (cubeEncode (octDecode sqrt oc)).2).2 := rfl

/-- The lower bilinear index `max(0, int(t * height - 0.5))` stays in
[0, height - 1] for t in [0, 1]. -/
theorem max_truncInt_mem {K : Type} [LinearOrderedField K] [FloorRing K] {height : Int}
    (hh : 1 ≤ height) {t : K} (h1 : t ≤ 1) :
    0 ≤ max 0 (truncInt (t * (height : K) - 1 / 2))
      ∧ max 0 (truncInt (t * (height : K) - 1 / 2)) ≤ height - 1 := by
  have hhK : (0 : K) ≤ (height : K) := by exact_mod_cast (by omega : (0 : Int) ≤ height)
  have hlt : t * (height : K) - 1 / 2 < (height : K) := by nlinarith
  have htr : truncInt (t * (height : K) - 1 / 2) ≤ height - 1 := by
    unfold truncInt
    split_ifs with h
    · have := Int.floor_lt.mpr hlt
      omega
    · have : ⌈t * (height : K) - 1 / 2⌉ ≤ 0 := Int.ceil_le.mpr (by simpa using (not_le.mp h).le)
      omega
  exact ⟨le_max_left _ _, max_le (by omega) htr⟩

/-- The four bilinear taps for a uv of [0, 1]^2 on face `face` read rows of
[0, height - 1] and pixels of that face. -/
theorem bilinearPixels_mem {K : Type} [LinearOrderedField K] [FloorRing K] {height : Int}
    (hh : 1 ≤ height) (uv : V2 K) (face : Int) (hx : uv.x ≤ 1) (hy : 0 ≤ uv.y) :
    ((0 ≤ (bilinearPixels height uv face).1.1 ∧ (bilinearPixels height uv face).1.1 ≤ height - 1)
      ∧ (0 ≤ (bilinearPixels height uv face).1.2
        ∧ (bilinearPixels height uv face).1.2 ≤ height - 1))
    ∧ ((height * face ≤ (bilinearPixels height uv face).2.1
        ∧ (bilinearPixels height uv face).2.1 ≤ height * face + (height - 1))
      ∧ (height * face ≤ (bilinearPixels height uv face).2.2
        ∧ (bilinearPixels height uv face).2.2 ≤ height * face + (height - 1))) := by
  have h1 := max_truncInt_mem hh hx
  have h2 := max_truncInt_mem hh (by linarith : 1 - uv.y ≤ 1)
  unfold bilinearPixels
  simp only
  refine ⟨⟨h2, ?_, ?_⟩, ⟨⟨?_, ?_⟩, ?_, ?_⟩⟩
  · exact le_min (by omega) (by omega)
  · exact min_le_left _ _
  · omega
  · omega
  · have := le_min (by omega : (0 : Int) ≤ height - 1)
      (by omega : (0 : Int) ≤ max 0 (truncInt (uv.x * (height : K) - 1 / 2)) + 1)
    omega
  · have := min_le_left (height - 1) (max 0 (truncInt (uv.x * (height : K) - 1 / 2)) + 1)
    omega

/-- C18. Every source fetch is in bounds: for N >= 1 and every output cell
(x, y) with 0 <= x, y < N, in the Nearest branch, at the four taps of the
Bilinear branch and at every tap of the windowed branch (for every kernel
radius), the face index lies in 0..5, the row read lies in [0, N - 1] and the
pixel column read lies in [face * N, face * N + N - 1]. -/
theorem fetches_in_bounds (height : Int) (hh : 1 ≤ height) (x y : Int)
    (_hx : 0 ≤ x ∧ x < height) (_hy : 0 ≤ y ∧ y < height) :
    ((0 ≤ (cubeEncode (octDecode Real.sqrt (octMapCoord height x y))).2
        ∧ (cubeEncode (octDecode Real.sqrt (octMapCoord height x y))).2 ≤ 5)
      ∧ (0 ≤ (nearestPixel height (cubeEncode (octDecode Real.sqrt (octMapCoord height x y))).1
              (cubeEncode (octDecode Real.sqrt (octMapCoord height x y))).2).1
        ∧ (nearestPixel height (cubeEncode (octDecode Real.sqrt (octMapCoord height x y))).1
              (cubeEncode (octDecode Real.sqrt (octMapCoord height x y))).2).1 ≤ height - 1)
      ∧ (height * (cubeEncode (octDecode Real.sqrt (octMapCoord height x y))).2
          ≤ (nearestPixel height (cubeEncode (octDecode Real.sqrt (octMapCoord height x y))).1
              (cubeEncode (octDecode Real.sqrt (octMapCoord height x y))).2).2
        ∧ (nearestPixel height (cubeEncode (octDecode Real.sqrt (octMapCoord height x y))).1
              (cubeEncode (octDecode Real.sqrt (octMapCoord height x y))).2).2
          ≤ height * (cubeEncode (octDecode Real.sqrt (octMapCoord height x y))).2
            + (height - 1)))
    ∧ (((0 ≤ (bilinearPixels height
                (cubeEncode (octDecode Real.sqrt (octMapCoord height x y))).1
                (cubeEncode (octDecode Real.sqrt (octMapCoord height x y))).2).1.1
          ∧ (bilinearPixels height
                (cubeEncode (octDecode Real.sqrt (octMapCoord height x y))).1
                (cubeEncode (octDecode Real.sqrt (octMapCoord height x y))).2).1.1 ≤ height - 1)
        ∧ (0 ≤ (bilinearPixels height
                (cubeEncode (octDecode Real.sqrt (octMapCoord height x y))).1
                (cubeEncode (octDecode Real.sqrt (octMapCoord height x y))).2).1.2
          ∧ (bilinearPixels height
                (cubeEncode (octDecode Real.sqrt (octMapCoord height x y))).1
                (cubeEncode (octDecode Real.sqrt (octMapCoord height x y))).2).1.2 ≤ height - 1))
      ∧ ((height * (cubeEncode (octDecode Real.sqrt (octMapCoord height x y))).2
            ≤ (bilinearPixels height
                (cubeEncode (octDecode Real.sqrt (octMapCoord height x y))).1
                (cubeEncode (octDecode Real.sqrt (octMapCoord height x y))).2).2.1
          ∧ (bilinearPixels height
                (cubeEncode (octDecode Real.sqrt (octMapCoord height x y))).1
                (cubeEncode (octDecode Real.sqrt (octMapCoord height x y))).2).2.1
            ≤ height * (cubeEncode (octDecode Real.sqrt (octMapCoord height x y))).2
              + (height - 1))
        ∧ (height * (cubeEncode (octDecode Real.sqrt (octMapCoord height x y))).2
            ≤ (bilinearPixels height
                (cubeEncode (octDecode Real.sqrt (octMapCoord height x y))).1
                (cubeEncode (octDecode Real.sqrt (octMapCoord height x y))).2).2.2
          ∧ (bilinearPixels height
                (cubeEncode (octDecode Real.sqrt (octMapCoord height x y))).1
                (cubeEncode (octDecode Real.sqrt (octMapCoord height x y))).2).2.2
            ≤ height * (cubeEncode (octDecode Real.sqrt (octMapCoord height x y))).2
              + (height - 1))))
    ∧ ∀ (radius : ℝ) (t : Int × Int),
        (0 ≤ (cubeEncode (octDecode Real.sqrt
                (tapCoord height (octMapCoord height x y) (pixelOfst radius t)))).2
          ∧ (cubeEncode (octDecode Real.sqrt
                (tapCoord height (octMapCoord height x y) (pixelOfst radius t)))).2 ≤ 5)
        ∧ (0 ≤ (tapPixel Real.sqrt height (octMapCoord height x y) (pixelOfst radius t)).1
          ∧ (tapPixel Real.sqrt height (octMapCoord height x y) (pixelOfst radius t)).1
            ≤ height - 1)
        ∧ (height * (cubeEncode (octDecode Real.sqrt
                (tapCoord height (octMapCoord height x y) (pixelOfst radius t)))).2
            ≤ (tapPixel Real.sqrt height (octMapCoord height x y) (pixelOfst radius t)).2
          ∧ (tapPixel Real.sqrt height (octMapCoord height x y) (pixelOfst radius t)).2
            ≤ height * (cubeEncode (octDecode Real.sqrt
                (tapCoord height (octMapCoord height x y) (pixelOfst radius t)))).2
              + (height - 1)) := by
  have huv := cubeEncode_uv_mem (octDecode Real.sqrt (octMapCoord height x y))
  have hf := cubeEncode_face_mem (octDecode Real.sqrt (octMapCoord height x y))
  have hn := nearestPixel_mem hh (cubeEncode (octDecode Real.sqrt (octMapCoord height x y))).1
    (cubeEncode (octDecode Real.sqrt (octMapCoord height x y))).2 huv.1.1 huv.2.2
  have hb := bilinearPixels_mem hh (cubeEncode (octDecode Real.sqrt (octMapCoord height x y))).1
    (cubeEncode (octDecode Real.sqrt (octMapCoord height x y))).2 huv.1.2 huv.2.1
  refine ⟨⟨hf, hn.1, hn.2⟩, hb, ?_⟩
  intro radius t
  have huv' := cubeEncode_uv_mem (octDecode Real.sqrt
    (tapCoord height (octMapCoord height x y) (pixelOfst radius t)))
  have hf' := cubeEncode_face_mem (octDecode Real.sqrt
    (tapCoord height (octMapCoord height x y) (pixelOfst radius t)))
  have hn' := nearestPixel_mem hh (cubeEncode (octDecode Real.sqrt
      (tapCoord height (octMapCoord height x y) (pixelOfst radius t)))).1
    (cubeEncode (octDecode Real.sqrt
      (tapCoord height (octMapCoord height x y) (pixelOfst radius t)))).2 huv'.1.1 huv'.2.2
  exact ⟨hf', hn'.1, hn'.2⟩

/-- Witness for C18 at N = 4 and the cell (0, 0): the face read by the
Nearest branch lies in 0..5. -/
theorem fetches_in_bounds_witness :
    0 ≤ (cubeEncode (octDecode Real.sqrt (octMapCoord 4 0 0))).2
      ∧ (cubeEncode (octDecode Real.sqrt (octMapCoord 4 0 0))).2 ≤ 5 :=
  (fetches_in_bounds 4 (by decide) 0 0 (by decide) (by decide)).1.1

/-! ### The vertical wrap of `cubeDecode` -/

/-- The function `cubeDecode` builds its vector from the two wrapped
fractions `cubeDecodeU` and `cubeDecodeV`. -/
theorem cubeDecodeRawCfg_eq {K : Type} [LinearOrderedField K] [FloorRing K] (mirror : Bool)
    (o : V2 K) :
    cubeDecodeRawCfg mirror o
      = cubeDecodeFaceCfg mirror (cubeDecodeU o * 6) (cubeDecodeV o * 2 - 1) := rfl

/-- The fractional part `std::modf` returns lies strictly between -1 and 1. -/
theorem modfFrac_mem {K : Type} [LinearOrderedField K] [FloorRing K] (t : K) :
    -1 < modfFrac t ∧ modfFrac t < 1 := by
  unfold modfFrac truncInt
  split_ifs with h
  · constructor
    · linarith [Int.floor_le t]
    · linarith [Int.lt_floor_add_one t]
  · constructor
    · linarith [Int.ceil_lt_add_one t]
    · linarith [Int.le_ceil t]

/-- On (-1, 0) `std::modf` returns its argument as the fractional part. -/
theorem modfFrac_of_neg_mem {K : Type} [LinearOrderedField K] [FloorRing K] {t : K}
    (h0 : -1 < t) (h1 : t < 0) : modfFrac t = t := by
  have hc : ⌈t⌉ = 0 := by
    rw [Int.ceil_eq_iff]
    constructor
    · simpa using h0
    · simpa using h1.le
  unfold modfFrac truncInt
  rw [if_neg (not_le.mpr h1), hc]
  simp

/-- The wrapped horizontal fraction of `cubeDecode` lies in [0, 1). -/
theorem cubeDecodeU_mem {K : Type} [LinearOrderedField K] [FloorRing K] (o : V2 K) :
    0 ≤ cubeDecodeU o ∧ cubeDecodeU o < 1 := by
  have h := modfFrac_mem o.x
  unfold cubeDecodeU
  simp only
  split_ifs with hneg
  · constructor <;> linarith
  · exact ⟨not_lt.mp hneg, h.2⟩

/-- C19. The negative-vertical fallback of `cubeDecode` uses the horizontal
fraction: when the fractional part of `o.y` is strictly negative, the vertical
fraction `cubeDecode` uses is 1 + U with U in [0, 1) the wrapped fractional
part of `o.x`, not 1 + frac(o.y) (at o = (1/4, -1/4) it is 5/4, not 3/4); so
any two inputs with the same `x` and negative vertical fractional parts decode
to the same vector. -/
theorem cubeDecode_negative_vertical {K : Type} [LinearOrderedField K] [FloorRing K]
    (sqrt : K → K) (o : V2 K) (h : modfFrac o.y < 0) :
    (0 ≤ cubeDecodeU o ∧ cubeDecodeU o < 1)
    ∧ cubeDecodeV o = 1 + cubeDecodeU o
    ∧ cubeDecode sqrt o
        = (cubeDecodeFaceCfg MIRROR_FACES (cubeDecodeU o * 6)
            ((1 + cubeDecodeU o) * 2 - 1)).normalized sqrt
    ∧ (∀ o' : V2 K, o'.x = o.x → modfFrac o'.y < 0 → cubeDecode sqrt o' = cubeDecode sqrt o)
    ∧ (cubeDecodeV (⟨1 / 4, -(1 / 4)⟩ : V2 K) = 5 / 4
        ∧ 1 + modfFrac (-(1 / 4) : K) = 3 / 4) := by
  have hV : ∀ p : V2 K, modfFrac p.y < 0 → cubeDecodeV p = 1 + cubeDecodeU p := by
    intro p hp
    unfold cubeDecodeV
    simp only [hp, if_true]
  have hD : ∀ p : V2 K, modfFrac p.y < 0 → cubeDecode sqrt p
      = (cubeDecodeFaceCfg MIRROR_FACES (cubeDecodeU p * 6)
          ((1 + cubeDecodeU p) * 2 - 1)).normalized sqrt := by
    intro p hp
    unfold cubeDecode cubeDecodeCfg
    rw [cubeDecodeRawCfg_eq, hV p hp]
  have hq : modfFrac (-(1 / 4) : K) = -(1 / 4) :=
    modfFrac_of_neg_mem (by norm_num) (by norm_num)
  refine ⟨cubeDecodeU_mem o, hV o h, hD o h, ?_, ?_, ?_⟩
  · intro o' hx hy
    have hU : cubeDecodeU o' = cubeDecodeU o := by
      unfold cubeDecodeU
      rw [hx]
    rw [hD o' hy, hD o h, hU]
  · have hu : cubeDecodeU (⟨1 / 4, -(1 / 4)⟩ : V2 K) = 1 / 4 := by
      have hm : modfFrac (1 / 4 : K) = 1 / 4 := modfFrac_of_mem (by norm_num) (by norm_num)
      unfold cubeDecodeU
      simp only [hm]
      rw [if_neg (by norm_num)]
    rw [hV _ (by simp only [hq]; norm_num), hu]
    norm_num
  · rw [hq]; norm_num

/-- Witness for C19 at o = (1/4, -1/4): the vertical fraction used is 5/4. -/
theorem cubeDecode_negative_vertical_witness :
    cubeDecodeV (⟨1 / 4, -(1 / 4)⟩ : V2 ℚ) = 1 + cubeDecodeU (⟨1 / 4, -(1 / 4)⟩ : V2 ℚ) :=
  (cubeDecode_negative_vertical Rat.sqrt (⟨1 / 4, -(1 / 4)⟩ : V2 ℚ)
    (by
      have hq : modfFrac (-(1 / 4) : ℚ) = -(1 / 4) :=
        modfFrac_of_neg_mem (by norm_num) (by norm_num)
      simp only [hq]
      norm_num)).2.1

/-! ### Encoding a decoded face coordinate -/

/-- Over the reals `cubeEncode` of a normalised non-zero vector is
`cubeEncode` of the vector. -/
theorem cubeEncode_normalized_real {v : V3 ℝ} (hv : v ≠ ⟨0, 0, 0⟩) :
    cubeEncode (v.normalized Real.sqrt) = cubeEncode v := by
  have hl := Real.sqrt_pos.mpr (length2_pos3 hv)
  rw [normalized_real hv]
  unfold cubeEncode sampleCube
  rw [sampleCubeCfg_div_pos MIRROR_FACES v hl]

/-- The branch `sampleCube` takes on a vector of the +X face plane. -/
theorem sampleCube_plane_px {K : Type} [LinearOrderedField K] (p q : K) (hp : |p| < 1)
    (hq : |q| < 1) : sampleCube (⟨1, q, p⟩ : V3 K) = (⟨(1 - p) / 2, (1 + q) / 2⟩, 0) := by
  have c1 : ¬ (|p| ≥ 1 ∧ |p| ≥ |q|) := fun h => absurd h.1 (not_le.mpr hp)
  have c2 : ¬ (|q| ≥ 1) := not_le.mpr hq
  have c3 : ¬ ((1 : K) < 0) := by norm_num
  simp only [sampleCube, sampleCubeCfg, MIRROR_FACES, abs_one, c1, c2, c3, if_false, if_true]
  ext <;> simp only <;> ring

/-- The branch `sampleCube` takes on a vector of the -X face plane. -/
theorem sampleCube_plane_nx {K : Type} [LinearOrderedField K] (p q : K) (hp : |p| < 1)
    (hq : |q| < 1) : sampleCube (⟨-1, q, p⟩ : V3 K) = (⟨(1 + p) / 2, (1 + q) / 2⟩, 1) := by
  have c1 : ¬ (|p| ≥ 1 ∧ |p| ≥ |q|) := fun h => absurd h.1 (not_le.mpr hp)
  have c2 : ¬ (|q| ≥ 1) := not_le.mpr hq
  have c3 : (-1 : K) < 0 := by norm_num
  simp only [sampleCube, sampleCubeCfg, MIRROR_FACES, abs_neg, abs_one, c1, c2, c3, if_false,
    if_true]
  ext <;> simp only <;> ring

/-- The branch `sampleCube` takes on a vector of the +Y face plane. -/
theorem sampleCube_plane_py {K : Type} [LinearOrderedField K] (p q : K) (hp : |p| < 1)
    (hq : |q| < 1) : sampleCube (⟨p, 1, q⟩ : V3 K) = (⟨(1 + p) / 2, (1 - q) / 2⟩, 2) := by
  have c1 : ¬ (|q| ≥ |p| ∧ |q| ≥ 1) := fun h => absurd h.2 (not_le.mpr hq)
  have c2 : (1 : K) ≥ |p| := hp.le
  have c3 : ¬ ((1 : K) < 0) := by norm_num
  simp only [sampleCube, sampleCubeCfg, MIRROR_FACES, abs_one, c1, c2, c3, if_false, if_true]
  ext <;> simp only <;> ring

/-- The branch `sampleCube` takes on a vector of the -Y face plane. -/
theorem sampleCube_plane_ny {K : Type} [LinearOrderedField K] (p q : K) (hp : |p| < 1)
    (hq : |q| < 1) : sampleCube (⟨p, -1, q⟩ : V3 K) = (⟨(1 + p) / 2, (1 + q) / 2⟩, 3) := by
  have c1 : ¬ (|q| ≥ |p| ∧ |q| ≥ 1) := fun h => absurd h.2 (not_le.mpr hq)
  have c2 : (1 : K) ≥ |p| := hp.le
  have c3 : (-1 : K) < 0 := by norm_num
  simp only [sampleCube, sampleCubeCfg, MIRROR_FACES, abs_neg, abs_one, c1, c2, c3, if_false,
    if_true]
  ext <;> simp only <;> ring

/-- The branch `sampleCube` takes on a vector of the +Z face plane. -/
theorem sampleCube_plane_pz {K : Type} [LinearOrderedField K] (p q : K) (hp : |p| < 1)
    (hq : |q| < 1) : sampleCube (⟨p, q, 1⟩ : V3 K) = (⟨(1 + p) / 2, (1 + q) / 2⟩, 4) := by
  have c1 : (1 : K) ≥ |p| ∧ (1 : K) ≥ |q| := ⟨hp.le, hq.le⟩
  have c3 : ¬ ((1 : K) < 0) := by norm_num
  simp only [sampleCube, sampleCubeCfg, MIRROR_FACES, abs_one, c1, c3, and_self, if_false,
    if_true]
  ext <;> simp only <;> ring

/-- The branch `sampleCube` takes on a vector of the -Z face plane. -/
theorem sampleCube_plane_nz {K : Type} [LinearOrderedField K] (p q : K) (hp : |p| < 1)
    (hq : |q| < 1) : sampleCube (⟨p, q, -1⟩ : V3 K) = (⟨(1 - p) / 2, (1 + q) / 2⟩, 5) := by
  have c1 : (1 : K) ≥ |p| ∧ (1 : K) ≥ |q| := ⟨hp.le, hq.le⟩
  have c3 : (-1 : K) < 0 := by norm_num
  simp only [sampleCube, sampleCubeCfg, MIRROR_FACES, abs_neg, abs_one, c1, c3, and_self,
    if_false, if_true]
  ext <;> simp only <;> ring

/-- C20. The decoding `cubeDecode` is inverted by `cubeEncode` on face
interiors: over the reals, for every face slot f in 0..5 and a, b strictly
between 0 and 1, `cubeEncode (cubeDecode ((f + a) / 6, b))` returns face index
f and uv = (a, b). -/
theorem cubeEncode_cubeDecode_interior (f : Int) (hf : 0 ≤ f ∧ f ≤ 5) (a b : ℝ)
    (ha : 0 < a ∧ a < 1) (hb : 0 < b ∧ b < 1) :
    cubeEncode (cubeDecode Real.sqrt ⟨((f : ℝ) + a) / 6, b⟩) = (⟨a, b⟩, f) := by
  have hslot := cubeDecodeRaw_slot a b ha.1.le ha.2 hb.1.le hb.2
  have hA : |2 * a - 1| < 1 := abs_lt.mpr ⟨by linarith, by linarith⟩
  have hA' : |1 - 2 * a| < 1 := abs_lt.mpr ⟨by linarith, by linarith⟩
  have hB : |2 * b - 1| < 1 := abs_lt.mpr ⟨by linarith, by linarith⟩
  have hB' : |1 - 2 * b| < 1 := abs_lt.mpr ⟨by linarith, by linarith⟩
  have hne : ∀ v : V3 ℝ, (v.x = 1 ∨ v.x = -1 ∨ v.y = 1 ∨ v.y = -1 ∨ v.z = 1 ∨ v.z = -1) →
      v ≠ ⟨0, 0, 0⟩ := by
    intro v hv h0
    rw [h0] at hv
    norm_num at hv
  obtain ⟨hf0, hf5⟩ := hf
  unfold cubeDecode cubeDecodeCfg MIRROR_FACES
  interval_cases f
  · simp only [Int.cast_zero]
    rw [hslot.1, cubeEncode_normalized_real (hne _ (Or.inl rfl)),
      cubeEncode_eq_sampleCube _ (hne _ (Or.inl rfl)), sampleCube_plane_px _ _ hA' hB]
    ext <;> simp only <;> ring
  · simp only [Int.cast_one]
    rw [hslot.2.1, cubeEncode_normalized_real (hne _ (Or.inr (Or.inl rfl))),
      cubeEncode_eq_sampleCube _ (hne _ (Or.inr (Or.inl rfl))), sampleCube_plane_nx _ _ hA hB]
    ext <;> simp only <;> ring
  · simp only [Int.cast_ofNat]
    rw [hslot.2.2.1, cubeEncode_normalized_real (hne _ (Or.inr (Or.inr (Or.inl rfl)))),
      cubeEncode_eq_sampleCube _ (hne _ (Or.inr (Or.inr (Or.inl rfl)))),
      sampleCube_plane_py _ _ hA hB']
    ext <;> simp only <;> ring
  · simp only [Int.cast_ofNat]
    rw [hslot.2.2.2.1,
      cubeEncode_normalized_real (hne _ (Or.inr (Or.inr (Or.inr (Or.inl rfl))))),
      cubeEncode_eq_sampleCube _ (hne _ (Or.inr (Or.inr (Or.inr (Or.inl rfl))))),
      sampleCube_plane_ny _ _ hA hB]
    ext <;> simp only <;> ring
  · simp only [Int.cast_ofNat]
    rw [hslot.2.2.2.2.1,
      cubeEncode_normalized_real (hne _ (Or.inr (Or.inr (Or.inr (Or.inr (Or.inl rfl)))))),
      cubeEncode_eq_sampleCube _ (hne _ (Or.inr (Or.inr (Or.inr (Or.inr (Or.inl rfl)))))),
      sampleCube_plane_pz _ _ hA hB]
    ext <;> simp only <;> ring
  · simp only [Int.cast_ofNat]
    rw [hslot.2.2.2.2.2,
      cubeEncode_normalized_real (hne _ (Or.inr (Or.inr (Or.inr (Or.inr (Or.inr rfl)))))),
      cubeEncode_eq_sampleCube _ (hne _ (Or.inr (Or.inr (Or.inr (Or.inr (Or.inr rfl)))))),
      sampleCube_plane_nz _ _ hA' hB]
    ext <;> simp only <;> ring

/-- Witness for C20 on the top face, slot 2, at a = 1/4, b = 3/4. -/
theorem cubeEncode_cubeDecode_interior_witness :
    cubeEncode (cubeDecode Real.sqrt ⟨(((2 : Int) : ℝ) + 1 / 4) / 6, 3 / 4⟩)
      = (⟨1 / 4, 3 / 4⟩, 2) :=
  cubeEncode_cubeDecode_interior 2 (by decide) (1 / 4) (3 / 4) (by norm_num) (by norm_num)

/-! ### Orientation of the nearest fetch -/

/-- C21. The nearest fetch treats the face uv origin as the bottom-left
corner: for N >= 1 and uv = (u, v) in [0, 1]^2 on face f the Nearest branch
reads pixel column f * N + min(N - 1, floor(u * N)) and row
min(N - 1, floor((1 - v) * N)), so v = 0 selects row N - 1 and v = 1 selects
row 0. -/
theorem nearest_fetch_bottom_left {K : Type} [LinearOrderedField K] [FloorRing K]
    (height : Int) (hh : 1 ≤ height) (uv : V2 K) (face : Int)
    (hu : 0 ≤ uv.x ∧ uv.x ≤ 1) (hv : 0 ≤ uv.y ∧ uv.y ≤ 1) :
    (nearestPixel height uv face).2
        = face * height + min (height - 1) ⌊uv.x * (height : K)⌋
    ∧ (nearestPixel height uv face).1 = min (height - 1) ⌊(1 - uv.y) * (height : K)⌋
    ∧ (uv.y = 0 → (nearestPixel height uv face).1 = height - 1)
    ∧ (uv.y = 1 → (nearestPixel height uv face).1 = 0)
    ∧ ∀ (sqrt : K → K) (inputImage : Image K) (oc : V2 K),
        resampleNearest sqrt inputImage height oc
          = fetchRGB inputImage
              (nearestPixel height (cubeEncode (octDecode sqrt oc)).1
                (cubeEncode (octDecode sqrt oc)).2).1
              (nearestPixel height (cubeEncode (octDecode sqrt oc)).1
                (cubeEncode (octDecode sqrt oc)).2).2 := by
  have hhK : (0 : K) ≤ (height : K) := by exact_mod_cast (by omega : (0 : Int) ≤ height)
  have hx : 0 ≤ uv.x * (height : K) := mul_nonneg hu.1 hhK
  have hy : 0 ≤ (1 - uv.y) * (height : K) := mul_nonneg (sub_nonneg.mpr hv.2) hhK
  have erow : (nearestPixel height uv face).1 = min (height - 1) ⌊(1 - uv.y) * (height : K)⌋ := by
    simp only [nearestPixel, truncInt, if_pos hy]
  refine ⟨?_, erow, ?_, ?_, fun sqrt inputImage oc => resampleNearest_eq sqrt inputImage height oc⟩
  · simp only [nearestPixel, truncInt, if_pos hx]
    ring
  · intro h0
    rw [erow, h0, sub_zero, one_mul, Int.floor_intCast]
    exact min_eq_left (by omega)
  · intro h1
    rw [erow, h1, sub_self, zero_mul, Int.floor_zero]
    exact min_eq_right (by omega)

/-- Witness for C21 at N = 4, face 2 and uv = (1/4, 0): the last row is read. -/
theorem nearest_fetch_bottom_left_witness :
    (nearestPixel 4 (⟨1 / 4, 0⟩ : V2 ℚ) 2).1 = 4 - 1 :=
  (nearest_fetch_bottom_left 4 (by decide) (⟨1 / 4, 0⟩ : V2 ℚ) 2 (by norm_num)
    (by norm_num)).2.2.1 rfl

/-! ### Encoding a decoded octahedral coordinate -/

/-- The function `octEncode` does not change when its argument is divided by
a positive scalar. -/
theorem octEncode_div_pos {K : Type} [LinearOrderedField K] (v : V3 K) {c : K} (hc : 0 < c) :
    octEncode (⟨v.x / c, v.y / c, v.z / c⟩ : V3 K) = octEncode v := by
  have hc0 : c ≠ 0 := hc.ne'
  have hL : |v.x / c| + |v.y / c| + |v.z / c| = (|v.x| + |v.y| + |v.z|) / c := by
    rw [abs_div, abs_div, abs_div, abs_of_pos hc]; ring
  have ng : (v.z / c < 0) ↔ (v.z < 0) := by rw [div_lt_iff₀ hc, zero_mul]
  have key : ∀ p L : K, (p / c) * (1 / (L / c)) = p * (1 / L) := by
    intro p L
    by_cases hL0 : L = 0
    · simp [hL0]
    · field_simp
  unfold octEncode
  simp only [hL, ng, key]

/-- Before normalisation, encoding a decoded coordinate of the open square
gives the coordinate back. -/
theorem octEncode_octDecodeRaw {K : Type} [LinearOrderedField K] (o : V2 K) (hx : |o.x| < 1)
    (hy : |o.y| < 1) : octEncode (octDecodeRaw o) = o := by
  have hb' : 0 < 1 - |o.y| := by linarith
  have ha' : 0 < 1 - |o.x| := by linarith
  by_cases hz : 1 - |o.x| - |o.y| < 0
  · have hraw : octDecodeRaw o = ⟨(1 - |o.y|) * signNotZero o.x, (1 - |o.x|) * signNotZero o.y,
        1 - |o.x| - |o.y|⟩ := by
      unfold octDecodeRaw
      simp only [hz, if_true]
    have e1 : |(1 - |o.y|) * signNotZero o.x| = 1 - |o.y| := by
      rw [abs_mul, abs_signNotZero, mul_one, abs_of_pos hb']
    have e2 : |(1 - |o.x|) * signNotZero o.y| = 1 - |o.x| := by
      rw [abs_mul, abs_signNotZero, mul_one, abs_of_pos ha']
    have e3 : abs (1 - |o.x| - |o.y|) = -(1 - |o.x| - |o.y|) := abs_of_neg hz
    have hL : 1 - |o.y| + (1 - |o.x|) + -(1 - |o.x| - |o.y|) = 1 := by ring
    rw [hraw]
    unfold octEncode
    simp only [e1, e2, e3, hL, div_one, mul_one, hz, if_true, signNotZero2,
      signNotZero_pos_mul hb', signNotZero_pos_mul ha']
    have hsx := signNotZero_mul_abs o.x
    have hsy := signNotZero_mul_abs o.y
    ext
    · simp only; linarith
    · simp only; linarith
  · have hraw : octDecodeRaw o = ⟨o.x, o.y, 1 - |o.x| - |o.y|⟩ := by
      unfold octDecodeRaw
      simp only [hz, if_false]
    have e3 : abs (1 - |o.x| - |o.y|) = 1 - |o.x| - |o.y| := abs_of_nonneg (not_lt.mp hz)
    have hL : |o.x| + |o.y| + (1 - |o.x| - |o.y|) = 1 := by ring
    rw [hraw]
    unfold octEncode
    simp only [e3, hL, div_one, mul_one, hz, if_false]

/-- C22. The encoding `octEncode` inverts `octDecode` inside the square: over
the reals, for every o = (x, y) with |x| < 1 and |y| < 1,
`octEncode (octDecode o) = o`, in the centre diamond and in the folded corner
triangles alike. -/
theorem octEncode_octDecode_roundtrip (o : V2 ℝ) (hx : |o.x| < 1) (hy : |o.y| < 1) :
    octEncode (octDecode Real.sqrt o) = o := by
  have hne := octDecodeRaw_ne_zero o
  have hl := Real.sqrt_pos.mpr (length2_pos3 hne)
  unfold octDecode
  rw [normalize_real hne, octEncode_div_pos (octDecodeRaw o) hl, octEncode_octDecodeRaw o hx hy]

/-- Witness for C22 at o = (-3/4, 3/4), in a folded corner triangle. -/
theorem octEncode_octDecode_roundtrip_witness :
    octEncode (octDecode Real.sqrt (⟨-(3 / 4), 3 / 4⟩ : V2 ℝ)) = ⟨-(3 / 4), 3 / 4⟩ :=
  octEncode_octDecode_roundtrip ⟨-(3 / 4), 3 / 4⟩
    (by norm_num [abs_div, abs_neg]) (by norm_num [abs_div])

/-! ### The wrap-over on the negative side -/

/-- The cell-centre coordinate of every output cell (x, y) with
0 <= x, y < N lies in [-(1 - 1/N), 1 - 1/N]^2. -/
theorem octMapCoord_mem {K : Type} [LinearOrderedField K] (height : Int) (hh : 1 ≤ height)
    (x y : Int) (hx : 0 ≤ x ∧ x < height) (hy : 0 ≤ y ∧ y < height) :
    (-(1 - 1 / (height : K)) ≤ (octMapCoord height x y : V2 K).x
      ∧ (octMapCoord height x y : V2 K).x ≤ 1 - 1 / (height : K))
    ∧ (-(1 - 1 / (height : K)) ≤ (octMapCoord height x y : V2 K).y
      ∧ (octMapCoord height x y : V2 K).y ≤ 1 - 1 / (height : K)) := by
  have hN : (0 : K) < (height : K) := by exact_mod_cast (by omega : (0 : Int) < height)
  have hx0 : (0 : K) ≤ (x : K) := by exact_mod_cast hx.1
  have hy0 : (0 : K) ≤ (y : K) := by exact_mod_cast hy.1
  have hx1 : (x : K) ≤ (height : K) - 1 := by
    have : x ≤ height - 1 := by omega
    exact_mod_cast this
  have hy1 : (y : K) ≤ (height : K) - 1 := by
    have : y ≤ height - 1 := by omega
    exact_mod_cast this
  have ex : ∀ t : K, (t + 1 / 2) / (height : K) * 2 - 1
      = (2 * t + 1 - (height : K)) / (height : K) := by
    intro t; field_simp; ring
  have e1 : (1 : K) - 1 / (height : K) = ((height : K) - 1) / (height : K) := by
    field_simp
  unfold octMapCoord
  simp only
  rw [e1]
  refine ⟨⟨?_, ?_⟩, ?_, ?_⟩
  · rw [ex, ← neg_div, div_le_div_iff_of_pos_right hN]; linarith
  · rw [ex, div_le_div_iff_of_pos_right hN]; linarith
  · have : (1 : K) - ((y : K) + 1 / 2) / (height : K) * 2
        = -(((y : K) + 1 / 2) / (height : K) * 2 - 1) := by ring
    rw [this, ex, neg_le_neg_iff, div_le_div_iff_of_pos_right hN]; linarith
  · have : (1 : K) - ((y : K) + 1 / 2) / (height : K) * 2
        = -(((y : K) + 1 / 2) / (height : K) * 2 - 1) := by ring
    rw [this, ex, neg_le, ← neg_div, div_le_div_iff_of_pos_right hN]; linarith

/-- Body of the first wrap-over on a positive overshoot: x becomes 2 - x. -/
theorem wrapX_of_one_lt {K : Type} [LinearOrderedField K] (c : V2 K) (h : 1 < c.x) :
    wrapX c = ⟨2 - c.x, -c.y⟩ := by
  have h0 : 0 < c.x := by linarith
  simp only [wrapX, sign, abs_of_pos h0, gt_iff_lt, h0, if_true, V2.mk.injEq, and_true]
  ring

/-- Body of the first wrap-over on a negative overshoot: `sign(x) - overlap`
is -1 - (|x| - 1), which is x again, so x stays below -1. -/
theorem wrapX_of_lt_neg_one {K : Type} [LinearOrderedField K] (c : V2 K) (h : c.x < -1) :
    wrapX c = ⟨c.x, -c.y⟩ := by
  have h0 : c.x < 0 := by linarith
  simp only [wrapX, sign, abs_of_neg h0, gt_iff_lt, not_lt.mpr h0.le, h0, if_true, if_false,
    V2.mk.injEq, and_true]
  ring

/-- Body of the second wrap-over on a negative overshoot: y stays below -1. -/
theorem wrapY_of_lt_neg_one {K : Type} [LinearOrderedField K] (c : V2 K) (h : c.y < -1) :
    wrapY c = ⟨-c.x, c.y⟩ := by
  have h0 : c.y < 0 := by linarith
  simp only [wrapY, sign, abs_of_neg h0, gt_iff_lt, not_lt.mpr h0.le, h0, if_true, if_false,
    V2.mk.injEq, true_and]
  ring

/-- C23. The seam correction does not keep every tap on the square: for
N = 4, the cell (0, 0) with centre (-3/4, 3/4), which lies in
[-(1 - 1/N), 1 - 1/N]^2, the tap (-3, 0) and kernel radius 2, the tap
coordinate after the two wrap-over corrections is (-3/2, -3/4), whose x
component is below -1. -/
theorem seam_correction_negative_overshoot :
    (octMapCoord 4 0 0 : V2 ℝ) = ⟨-(3 / 4), 3 / 4⟩
    ∧ pixelOfst (2 : ℝ) ((-3, 0) : Int × Int) = ⟨-(3 / 2), 0⟩
    ∧ tapCoord 4 (octMapCoord 4 0 0 : V2 ℝ) (pixelOfst (2 : ℝ) ((-3, 0) : Int × Int))
        = ⟨-(3 / 2), -(3 / 4)⟩
    ∧ (tapCoord 4 (octMapCoord 4 0 0 : V2 ℝ) (pixelOfst (2 : ℝ) ((-3, 0) : Int × Int))).x
        < -1 := by
  have hoc : (octMapCoord 4 0 0 : V2 ℝ) = ⟨-(3 / 4), 3 / 4⟩ := by
    norm_num [octMapCoord]
  have hof : pixelOfst (2 : ℝ) ((-3, 0) : Int × Int) = ⟨-(3 / 2), 0⟩ := by
    norm_num [pixelOfst, supportExtent]
  have htap : tapCoord 4 (octMapCoord 4 0 0 : V2 ℝ) (pixelOfst (2 : ℝ) ((-3, 0) : Int × Int))
      = ⟨-(3 / 2), -(3 / 4)⟩ := by
    rw [hoc, hof]
    norm_num [tapCoord, wrapover, wrapX, wrapY, sign, abs_div, abs_neg]
  refine ⟨hoc, hof, htap, ?_⟩
  rw [htap]
  norm_num

/-! ### The bilinear blend at the low edge -/

/-- The cast `int(f)` is 0 for every f strictly between -1 and 1. -/
theorem truncInt_eq_zero {K : Type} [LinearOrderedField K] [FloorRing K] {t : K}
    (h0 : -1 < t) (h1 : t < 1) : truncInt t = 0 := by
  unfold truncInt
  split_ifs with h
  · exact Int.floor_eq_zero_iff.mpr ⟨h, h1⟩
  · rw [Int.ceil_eq_iff]
    constructor
    · simpa using h0
    · simpa using (not_le.mp h).le

/-- The blend fractions of the bilinear branch for a uv of [0, 1]^2 lie in
[-1/2, 1): they are negative when the scaled coordinate is below 1/2. -/
theorem bilinearFrac_mem {K : Type} [LinearOrderedField K] [FloorRing K] (height : Int)
    (hh : 1 ≤ height) (uv : V2 K) (hu : 0 ≤ uv.x) (hv : uv.y ≤ 1) :
    (-(1 / 2) ≤ (bilinearFrac height uv).1 ∧ (bilinearFrac height uv).1 < 1)
    ∧ (-(1 / 2) ≤ (bilinearFrac height uv).2 ∧ (bilinearFrac height uv).2 < 1) := by
  have hhK : (0 : K) ≤ (height : K) := by exact_mod_cast (by omega : (0 : Int) ≤ height)
  have key : ∀ t : K, 0 ≤ t →
      -(1 / 2) ≤ t - (((max 0 (truncInt (t - 1 / 2)) : Int) : K) + 1 / 2)
      ∧ t - (((max 0 (truncInt (t - 1 / 2)) : Int) : K) + 1 / 2) < 1 := by
    intro t ht
    by_cases h : 0 ≤ t - 1 / 2
    · have hfl : 0 ≤ ⌊t - 1 / 2⌋ := Int.floor_nonneg.mpr h
      have e : truncInt (t - 1 / 2) = ⌊t - 1 / 2⌋ := by
        unfold truncInt; rw [if_pos h]
      rw [e, max_eq_right hfl]
      constructor
      · linarith [Int.floor_le (t - 1 / 2)]
      · linarith [Int.lt_floor_add_one (t - 1 / 2)]
    · have e : truncInt (t - 1 / 2) = 0 :=
        truncInt_eq_zero (by linarith) (by linarith [not_le.mp h])
      rw [e, max_self, Int.cast_zero]
      constructor
      · linarith
      · linarith [not_le.mp h]
  exact ⟨key _ (mul_nonneg hu hhK), key _ (mul_nonneg (sub_nonneg.mpr hv) hhK)⟩

/-- The four tap weights of the bilinear blend sum to 1 for all fractions. -/
theorem bilinear_weights_sum {K : Type} [LinearOrderedField K] (hFrac vFrac : K) :
    (1 - hFrac) * (1 - vFrac) + hFrac * (1 - vFrac) + (1 - hFrac) * vFrac + hFrac * vFrac
      = 1 := by
  ring

/-- C24. The bilinear blend is not a convex combination at the low edge: for
N = 2 and the output cell (0, 0) the Bilinear branch gets face 2 and
uv = (0, 1/2), computes hFrac = -1/2 and vFrac = 1/2, reads rows 0, 1 and
pixel columns 4, 5, and on the image holding 0 in pixel column 4 and 1 in
pixel column 5 its first channel is -1/2, below all four fetched values. -/
theorem bilinear_extrapolates_at_low_edge :
    cubeEncode (octDecode Real.sqrt (octMapCoord 2 0 0 : V2 ℝ)) = (⟨0, 1 / 2⟩, 2)
    ∧ bilinearFrac 2 (cubeEncode (octDecode Real.sqrt (octMapCoord 2 0 0 : V2 ℝ))).1
        = (-(1 / 2), 1 / 2)
    ∧ bilinearPixels 2 (cubeEncode (octDecode Real.sqrt (octMapCoord 2 0 0 : V2 ℝ))).1
        (cubeEncode (octDecode Real.sqrt (octMapCoord 2 0 0 : V2 ℝ))).2 = ((0, 1), (4, 5))
    ∧ (resamplePixel Real.sqrt ResampleType.BILINEAR
        ((MitchellFilter.default : MitchellFilter ℝ).toFilter Real.sqrt)
        (fun _ col => if 15 ≤ col then 1 else 0) 2 0 0).x = -(1 / 2) := by
  have hce : cubeEncode (octDecode Real.sqrt (octMapCoord 2 0 0 : V2 ℝ)) = (⟨0, 1 / 2⟩, 2) := by
    rw [cubeEncode_octDecode_real]
    norm_num [cubeEncode, sampleCube, sampleCubeCfg, MIRROR_FACES, clamp, octMapCoord,
      octDecodeRaw, abs_div, abs_neg]
  have t1 : truncInt ((0 : ℝ) * ((2 : Int) : ℝ) - 1 / 2) = 0 :=
    truncInt_eq_zero (by norm_num) (by norm_num)
  have t2 : truncInt ((1 - (1 / 2 : ℝ)) * ((2 : Int) : ℝ) - 1 / 2) = 0 :=
    truncInt_eq_zero (by norm_num) (by norm_num)
  have hfr : bilinearFrac 2 (⟨0, 1 / 2⟩ : V2 ℝ) = (-(1 / 2), 1 / 2) := by
    simp only [bilinearFrac, t1, t2]
    norm_num
  have hpx : bilinearPixels 2 (⟨0, 1 / 2⟩ : V2 ℝ) 2 = ((0, 1), (4, 5)) := by
    simp only [bilinearPixels, t1, t2]
    norm_num
  refine ⟨hce, ?_, ?_, ?_⟩
  · rw [hce]; exact hfr
  · rw [hce]; exact hpx
  · unfold resamplePixel
    simp only
    rw [resampleBilinear_eq, hce]
    simp only [hfr, hpx, bilinearChannel]
    norm_num

end CubeMapToOctMap
